import Mathlib

/-
Verification development for the path-based layered state store of this
go-ethereum fork (triedb/pathdb: layer tree, lookup index, disk layer,
aggregation buffer, and the reverse-diff history log).

The Go code is shallowly embedded: Go maps become association lists (for
in-memory repository data structures) or update functions (for the external
key-value store), 32-byte hashes become `Nat`, byte strings become `List Nat`,
and fallible operations return `Except`.  Definitions follow the Go source
files under src/; the few pieces of this repository that are not included in
src/ (pathdb's difflayer.go, nodes.go, states.go and history.go) are modelled
from the specification and marked as such in their doc comments.
-/

/-- State roots, account hashes and slot hashes: 32-byte hashes, as `Nat`.
The all-zero hash is `0`. -/
abbrev Hash := Nat

/-- Position of a trie node inside its owning trie (a byte sequence). -/
abbrev NodePath := List Nat

/-- A byte string (RLP blob, account payload, storage payload...). -/
abbrev Blob := List Nat

/-- Root hash of an empty Merkle-Patricia trie
(`types.EmptyRootHash`, keccak256 of the RLP of the empty string). -/
def emptyRootHash : Hash :=
  0x56e81f171bcc55a6ff8345e692c0f86e5b48e01b996cadc001622fb5e363b421

/-- `types.TrieRootHash`: normalizes the all-zero root hash to the canonical
empty-trie root and leaves every other root unchanged. -/
def trieRootHash (h : Hash) : Hash := if h = 0 then emptyRootHash else h

theorem trieRootHash_ne_zero (h : Hash) : trieRootHash h ≠ 0 := by
  unfold trieRootHash
  split
  · decide
  · assumption

/-! ### Association lists

Go maps over in-memory repository structures are embedded as association
lists; insertion keeps the position of an existing key and appends fresh
keys at the end (matching the insertion-order reasoning used below). -/

/-- Lookup in an association list. -/
def aget {κ α : Type} [DecidableEq κ] : List (κ × α) → κ → Option α
  | [], _ => none
  | (k', v) :: rest, k => if k' = k then some v else aget rest k

/-- Insert or overwrite a binding: an existing key keeps its position,
a fresh key is appended at the end. -/
def aset {κ α : Type} [DecidableEq κ] : List (κ × α) → κ → α → List (κ × α)
  | [], k, v => [(k, v)]
  | (k', v') :: rest, k, v =>
    if k' = k then (k, v) :: rest else (k', v') :: aset rest k v

/-- Delete a binding. -/
def adel {κ α : Type} [DecidableEq κ] : List (κ × α) → κ → List (κ × α)
  | [], _ => []
  | (k', v') :: rest, k => if k' = k then rest else (k', v') :: adel rest k

/-- Append one element to the list bound at `k` (binding `[x]` if absent). -/
def aappend {κ α : Type} [DecidableEq κ] (m : List (κ × List α)) (k : κ) (x : α) :
    List (κ × List α) :=
  aset m k (((aget m k).getD []) ++ [x])

theorem aget_aset_self {κ α : Type} [DecidableEq κ] (m : List (κ × α)) (k : κ) (v : α) :
    aget (aset m k v) k = some v := by
  induction m with
  | nil => simp [aset, aget]
  | cons hd tl ih =>
    by_cases h : hd.1 = k
    · simp [aset, aget, h]
    · simp [aset, aget, h, ih]

theorem aget_aset_ne {κ α : Type} [DecidableEq κ] (m : List (κ × α)) (k k' : κ) (v : α)
    (h : k ≠ k') : aget (aset m k v) k' = aget m k' := by
  induction m with
  | nil => simp [aset, aget, h]
  | cons hd tl ih =>
    by_cases hh : hd.1 = k
    · simp [aset, aget, hh, h]
    · simp only [aset, if_neg hh]
      by_cases hk : hd.1 = k'
      · simp [aget, hk]
      · simp [aget, hk, ih]

theorem aget_adel_ne {κ α : Type} [DecidableEq κ] (m : List (κ × α)) (k k' : κ)
    (h : k ≠ k') : aget (adel m k) k' = aget m k' := by
  induction m with
  | nil => simp [adel]
  | cons hd tl ih =>
    by_cases hh : hd.1 = k
    · subst hh
      simp [adel, aget, h]
    · simp only [adel, if_neg hh]
      by_cases hk : hd.1 = k'
      · simp [aget, hk]
      · simp [aget, hk, ih]

/-! ### The reverse-diff history log: startup repair (trie/reverse_diff.go) -/

/-- `repairReverseDiff` (src/trie/reverse_diff.go): on startup, walk the
reverse-diff freezer from the newest entry toward the tail; every entry whose
root does not match the persisted disk root is dropped by a head truncation,
and the walk stops at the first (newest) entry whose root equals `diskroot`,
returning its id; if no entry matches, the tail id is returned.

The freezer is embedded as its tail id `tail` plus the list `roots` of the
roots of the stored reverse diffs, newest first, so that the entry at the
head of the list has id `tail + roots.length`.  All stored entries are
assumed to decode (decode failures, which the Go loop merely skips, are not
modelled). -/
def repairReverseDiff (tail : Nat) (diskroot : Hash) : List Hash → Nat × List Hash
  | [] => (tail, [])
  | r :: rest =>
    if r = diskroot then (tail + (rest.length + 1), r :: rest)
    else repairReverseDiff tail diskroot rest

/-- C8: `repair(disk_root)` walks the history log from the newest entry toward
the tail, drops every entry whose root is ahead of the persisted disk root,
and returns the id of the (newest) entry whose root equals the disk root, or
the tail id when no entry matches. -/
theorem repairReverseDiff_spec (tail : Nat) (diskroot : Hash) (roots : List Hash) :
    (diskroot ∉ roots → repairReverseDiff tail diskroot roots = (tail, [])) ∧
    (diskroot ∈ roots → ∃ dropped kept, roots = dropped ++ kept ∧ diskroot ∉ dropped ∧
      kept.head? = some diskroot ∧
      repairReverseDiff tail diskroot roots = (tail + kept.length, kept)) := by
  induction roots with
  | nil => simp [repairReverseDiff]
  | cons r rest ih =>
    constructor
    · intro hnot
      have hr : r ≠ diskroot := by
        intro h
        exact hnot (by simp [h])
      have hrest : diskroot ∉ rest := by
        intro h
        exact hnot (by simp [h])
      simp [repairReverseDiff, hr, ih.1 hrest]
    · intro hmem
      by_cases hr : r = diskroot
      · refine ⟨[], r :: rest, by simp, by simp, by simp [hr], ?_⟩
        simp [repairReverseDiff, hr]
      · have hrest : diskroot ∈ rest := by
          rcases List.mem_cons.mp hmem with h | h
          · exact absurd h.symm hr
          · exact h
        obtain ⟨dropped, kept, hsplit, hdrop, hhead, heq⟩ := ih.2 hrest
        refine ⟨r :: dropped, kept, by simp [hsplit], ?_, hhead, ?_⟩
        · simp only [List.mem_cons, not_or]
          exact ⟨fun h => hr h.symm, hdrop⟩
        · simp [repairReverseDiff, hr, heq]

/-- Witness for C8 at a concrete freezer: tail id 3, stored roots
`[5, 7, 9]` (newest first, ids 6, 5, 4), persisted disk root 7. -/
theorem repairReverseDiff_spec_witness :
    ∃ dropped kept, ([5, 7, 9] : List Hash) = dropped ++ kept ∧ (7 : Hash) ∉ dropped ∧
      kept.head? = some 7 ∧
      repairReverseDiff 3 7 [5, 7, 9] = (3 + kept.length, kept) :=
  (repairReverseDiff_spec 3 7 [5, 7, 9]).2 (by decide)

/-! ### History bounds on commit (triedb/pathdb/disklayer.go + history log) -/

/-- Go's uint64 subtraction `a - b` (wrap-around modulo 2^64). -/
def usub (a b : Nat) : Nat := (a + 2 ^ 64 - b % 2 ^ 64) % 2 ^ 64

theorem usub_of_le {a b : Nat} (hb : b ≤ a) (ha : a < 2 ^ 64) : usub a b = a - b := by
  unfold usub
  have hblt : b < 2 ^ 64 := lt_of_le_of_lt hb ha
  have hbmod : b % 2 ^ 64 = b := Nat.mod_eq_of_lt hblt
  rw [hbmod]
  omega

/-- The reverse-diff freezer seen through its counters: `tailIdx` items have
been truncated from the tail (so the oldest retained history entry has id
`tailIdx + 1`) and `items` is the id of the newest entry. -/
structure FreezerM where
  tailIdx : Nat
  items : Nat
deriving DecidableEq

/-- Error values surfaced by the embedded pathdb operations. -/
inductive PathErr
  | snapshotStale
  | unexpectedHistory
  | stateUnrecoverable
  | idMismatch
  | historyGap
deriving DecidableEq

/-- Modelled from the spec (§4.7 `write`; pathdb's history writer is not in
src/): appending a history entry for the bottom-most diff layer places it at
id `bottomID`; introducing a gap is an error. -/
def writeHistoryM (fr : FreezerM) (bottomID : Nat) : Except PathErr FreezerM :=
  if bottomID = fr.items + 1 then .ok { fr with items := bottomID }
  else .error .historyGap

/-- Modelled from the spec (§4.7 `truncate_tail`; pathdb's truncateFromTail is
not in src/): truncating from the tail moves the freezer tail to `ntail`,
deleting every history entry with id ≤ `ntail`. -/
def truncateFromTailM (fr : FreezerM) (ntail : Nat) : FreezerM :=
  { fr with tailIdx := ntail }

/-- The history-pruning portion of `diskLayer.commit`
(src/triedb/pathdb/disklayer.go): the bottom layer's history entry is
appended, then `overflow` is set when the configured state-history `limit` is
non-zero and the bottom state id exceeds the freezer tail by more than
`limit`; in that case the tail is truncated to `oldest - 1` where
`oldest = bottomID - limit + 1` is the id of the oldest history entry to be
retained. -/
def commitHistoryTrunc (fr : FreezerM) (limit bottomID : Nat) : Except PathErr FreezerM :=
  match writeHistoryM fr bottomID with
  | .error e => .error e
  | .ok fr1 =>
    if limit ≠ 0 ∧ limit < usub bottomID fr1.tailIdx then
      -- oldest = bottomID - limit + 1; the freezer tail becomes oldest - 1
      .ok (truncateFromTailM fr1 (usub bottomID limit))
    else .ok fr1

/-- C5: after a commit whose bottom state id exceeds the history tail by more
than the non-zero `limit`, the history log is truncated from the tail so that
the oldest retained entry (`tailIdx + 1`) has id at least `bottomID - limit`
(the new head id is `bottomID`); with `limit = 0`, or when the excess does not
exceed the limit, no tail pruning occurs. -/
theorem commit_state_history_bound (fr : FreezerM) (limit bottomID : Nat)
    (hb : bottomID = fr.items + 1) (ht : fr.tailIdx ≤ fr.items)
    (hw : bottomID < 2 ^ 64) :
    (limit = 0 →
      commitHistoryTrunc fr limit bottomID = .ok { fr with items := bottomID }) ∧
    (limit ≠ 0 → limit < bottomID - fr.tailIdx →
      ∃ fr2, commitHistoryTrunc fr limit bottomID = .ok fr2 ∧
        fr2.items = bottomID ∧
        fr2.tailIdx = bottomID - limit ∧
        bottomID - limit ≤ fr2.tailIdx + 1) ∧
    (limit ≠ 0 → bottomID - fr.tailIdx ≤ limit →
      commitHistoryTrunc fr limit bottomID = .ok { fr with items := bottomID }) := by
  have hwr : writeHistoryM fr bottomID = .ok { fr with items := bottomID } := by
    simp [writeHistoryM, hb]
  have htail : usub bottomID fr.tailIdx = bottomID - fr.tailIdx :=
    usub_of_le (by omega) hw
  refine ⟨?_, ?_, ?_⟩
  · intro h0
    simp [commitHistoryTrunc, hwr, h0]
  · intro hne hlt
    have hlim : limit ≤ bottomID := by omega
    have hlimr : usub bottomID limit = bottomID - limit :=
      usub_of_le hlim hw
    refine ⟨{ tailIdx := bottomID - limit, items := bottomID }, ?_, rfl, rfl, Nat.le_succ _⟩
    simp [commitHistoryTrunc, hwr, htail, hne, hlt, truncateFromTailM, hlimr]
  · intro hne hle
    simp only [commitHistoryTrunc, hwr]
    have : ¬ (limit ≠ 0 ∧ limit < usub bottomID fr.tailIdx) := by
      rw [htail]
      omega
    simp [this]

/-- Witness for C5 at a concrete freezer: tail 2, head 10, limit 5, bottom
state id 11; the excess 11 - 2 = 9 exceeds 5, so the tail moves to 6. -/
theorem commit_state_history_bound_witness :
    ∃ fr2, commitHistoryTrunc ⟨2, 10⟩ 5 11 = .ok fr2 ∧
      fr2.items = 11 ∧ fr2.tailIdx = 11 - 5 ∧ 11 - 5 ≤ fr2.tailIdx + 1 :=
  (commit_state_history_bound ⟨2, 10⟩ 5 11 (by decide) (by decide) (by decide)).2.1
    (by decide) (by decide)

/-! ### Trie nodes, node sets and flat state sets -/

/-- `trienode.Node`: a trie node blob plus its hash; an empty blob (with zero
hash) is a tombstone marking a deleted node. -/
structure NodeM where
  hash : Hash
  blob : Blob
deriving DecidableEq

/-- Modelled from the spec (pathdb nodes.go is not in src/): an aggregated
node set is the two-level mapping owner → path → node, the owner being the
zero hash for the account trie. -/
abbrev NodeSetM := List (Hash × List (NodePath × NodeM))

/-- `nodeSet.node`: retrieve the trie node with the given owner and path. -/
def nodeSetLookup (ns : NodeSetM) (owner : Hash) (path : NodePath) : Option NodeM :=
  match aget ns owner with
  | none => none
  | some sub => aget sub path

/-- Store a node under the given owner and path. -/
def nodeSetSet (ns : NodeSetM) (owner : Hash) (path : NodePath) (n : NodeM) : NodeSetM :=
  aset ns owner (aset ((aget ns owner).getD []) path n)

/-- Modelled from the spec (pathdb states.go is not in src/): an aggregated
flat state set: destructed accounts, account payloads and storage payloads,
an empty payload meaning deletion. -/
structure StateSetM where
  destructSet : List Hash
  accountData : List (Hash × Blob)
  storageData : List (Hash × List (Hash × Blob))
deriving DecidableEq

/-! ### The aggregation buffer (triedb/pathdb/buffer.go) -/

/-- `buffer`: aggregates the node sets and flat state sets of `layers`
consecutive flattened diff layers, bounded by `limit` bytes.  (The
approximate byte size bookkeeping is not needed by any claim and is not
modelled.) -/
structure BufferM where
  layers : Nat
  limit : Nat
  nodes : NodeSetM
  states : StateSetM
deriving DecidableEq

/-- `buffer.empty`: the buffer is empty iff it aggregates zero layers. -/
def BufferM.empty (b : BufferM) : Bool := b.layers == 0

/-- `buffer.reset`: clears the aggregated content. -/
def BufferM.reset (b : BufferM) : BufferM :=
  { b with layers := 0, nodes := [], states := ⟨[], [], []⟩ }

/-- `buffer.node`: retrieve a trie node from the aggregated node set. -/
def BufferM.node (b : BufferM) (owner : Hash) (path : NodePath) : Option NodeM :=
  nodeSetLookup b.nodes owner path

/-! ### The external key-value store, through the pathdb key schema -/

/-- The external `KvStore` seen through the pathdb key layout: account-trie
nodes, storage-trie nodes, flat account snapshots, flat storage snapshots,
the persistent state id and the snapshot root.  Being an external
collaborator it is embedded as plain lookup functions. -/
structure KVStore where
  accountNodes : NodePath → Option Blob
  storageNodes : Hash × NodePath → Option Blob
  accountSnaps : Hash → Option Blob
  storageSnaps : Hash × Hash → Option Blob
  persistentStateID : Nat
  snapshotRoot : Hash

/-- Point update of a key-value map. -/
def kvSet {κ : Type} [DecidableEq κ] (m : κ → Option Blob) (k : κ) (v : Blob) :
    κ → Option Blob :=
  fun x => if x = k then some v else m x

/-- Point deletion in a key-value map. -/
def kvDel {κ : Type} [DecidableEq κ] (m : κ → Option Blob) (k : κ) : κ → Option Blob :=
  fun x => if x = k then none else m x

/-- Read a trie node from the store: the account-trie schema when the owner
is the zero hash, the storage-trie schema otherwise. -/
def kvNodeRead (db : KVStore) (owner : Hash) (path : NodePath) : Option Blob :=
  if owner = 0 then db.accountNodes path else db.storageNodes (owner, path)

/-- Write one aggregated trie node: a tombstone (empty blob) deletes the key,
any other node overwrites it, under the schema selected by the owner. -/
def writeNodeOne (db : KVStore) (owner : Hash) (path : NodePath) (n : NodeM) : KVStore :=
  if owner = 0 then
    if n.blob = [] then { db with accountNodes := kvDel db.accountNodes path }
    else { db with accountNodes := kvSet db.accountNodes path n.blob }
  else
    if n.blob = [] then { db with storageNodes := kvDel db.storageNodes (owner, path) }
    else { db with storageNodes := kvSet db.storageNodes (owner, path) n.blob }

/-- All aggregated nodes of one trie owner, written in order. -/
def writeNodesOwner (db : KVStore) (o : Hash) (sub : List (NodePath × NodeM)) : KVStore :=
  sub.foldl (fun db pn => writeNodeOne db o pn.1 pn.2) db

/-- Modelled from the spec (§4.4, §6; pathdb `nodeSet.write` is not in src/):
all aggregated trie nodes are written to the batch, tombstones as deletions. -/
def writeNodesM (db : KVStore) (ns : NodeSetM) : KVStore :=
  ns.foldl (fun db ow => writeNodesOwner db ow.1 ow.2) db

/-- Whether a flat-state key lies beyond the snapshot generator's progress
marker (such writes are skipped; the generator will produce them later). -/
def progressSkip (progress : Option Hash) (h : Hash) : Bool :=
  match progress with
  | none => false
  | some m => decide (m < h)

/-- One destructed account: it loses its flat account entry and every flat
storage entry it owns. -/
def destructOne (db : KVStore) (h : Hash) : KVStore :=
  { db with accountSnaps := kvDel db.accountSnaps h,
            storageSnaps := fun k => if k.1 = h then none else db.storageSnaps k }

/-- Destructed accounts, processed in order. -/
def writeDestructs (db : KVStore) (ds : List Hash) : KVStore :=
  ds.foldl destructOne db

/-- One account payload: an empty payload deletes the flat entry; entries
beyond the generator's progress marker are skipped. -/
def writeAccountOne (db : KVStore) (progress : Option Hash) (hv : Hash × Blob) : KVStore :=
  if progressSkip progress hv.1 then db
  else if hv.2 = [] then { db with accountSnaps := kvDel db.accountSnaps hv.1 }
  else { db with accountSnaps := kvSet db.accountSnaps hv.1 hv.2 }

/-- Account payloads, processed in order. -/
def writeAccountsM (db : KVStore) (progress : Option Hash)
    (ad : List (Hash × Blob)) : KVStore :=
  ad.foldl (fun db hv => writeAccountOne db progress hv) db

/-- One storage payload of the account `a`. -/
def writeSlotOne (db : KVStore) (progress : Option Hash) (a : Hash)
    (sv : Hash × Blob) : KVStore :=
  if progressSkip progress a then db
  else if sv.2 = [] then { db with storageSnaps := kvDel db.storageSnaps (a, sv.1) }
  else { db with storageSnaps := kvSet db.storageSnaps (a, sv.1) sv.2 }

/-- The storage payloads of one account. -/
def writeStoragesOwner (db : KVStore) (progress : Option Hash) (a : Hash)
    (slots : List (Hash × Blob)) : KVStore :=
  slots.foldl (fun db sv => writeSlotOne db progress a sv) db

/-- All storage payloads. -/
def writeStoragesM (db : KVStore) (progress : Option Hash)
    (sd : List (Hash × List (Hash × Blob))) : KVStore :=
  sd.foldl (fun db hs => writeStoragesOwner db progress hs.1 hs.2) db

/-- Modelled from the spec (§4.4, §6; pathdb `stateSet.write` is not in src/):
destructed accounts first have their flat account entry and all their flat
storage entries deleted; then account payloads are written (an empty payload
deletes), then storage payloads (likewise); entries beyond the generator's
progress marker are skipped. -/
def writeStatesM (db : KVStore) (progress : Option Hash) (st : StateSetM) : KVStore :=
  writeStoragesM (writeAccountsM (writeDestructs db st.destructSet) progress st.accountData)
    progress st.storageData

/-- `buffer.flush` (src/triedb/pathdb/buffer.go): verifies that the persisted
state id plus the buffered layer count equals the requested id, then writes
all aggregated nodes and state records together with the new persistent state
id and the snapshot root in one atomic batch, and resets the buffer. -/
def BufferM.flush (b : BufferM) (root : Hash) (db : KVStore) (progress : Option Hash)
    (id : Nat) : Except PathErr (BufferM × KVStore) :=
  if db.persistentStateID + b.layers ≠ id then .error .idMismatch
  else
    let db1 := writeNodesM db b.nodes
    let db2 := writeStatesM db1 progress b.states
    .ok (b.reset, { db2 with persistentStateID := id, snapshotRoot := root })

/-! ### The disk layer: reads (triedb/pathdb/disklayer.go) -/

/-- Where a trie node was resolved from (`nodeLoc.loc`). -/
inductive NodeLocM
  | dirtyCache
  | cleanCache
  | diskLayer
deriving DecidableEq

/-- `diskLayer`: the persistent base layer.  It owns the aggregation buffer,
an optional clean-node cache (`none` when the cache is disabled) and the
key-value store.  (The clean-state cache and the snapshot generator only
matter for flat-state reads, which no claim exercises.) -/
structure DiskLayerM where
  root : Hash
  id : Nat
  stale : Bool
  buffer : BufferM
  cleanNodes : Option (List ((Hash × NodePath) × Blob))
  db : KVStore

/-- The blob held by the clean-node cache for a key (empty when the cache is
disabled or the key is absent; the Go code only accepts a cache answer of
positive length). -/
def DiskLayerM.cachedBlob (dl : DiskLayerM) (key : Hash × NodePath) : Blob :=
  match dl.cleanNodes with
  | some cache => (aget cache key).getD []
  | none => []

/-- The blob read from disk for a node key, under the schema selected by the
owner (missing keys read as the empty blob). -/
def DiskLayerM.diskBlob (dl : DiskLayerM) (owner : Hash) (path : NodePath) : Blob :=
  (kvNodeRead dl.db owner path).getD []

/-- `diskLayer.node`: fails on a stale layer; otherwise consults the dirty
buffer, then the clean-node cache, then the key-value store, populating the
clean cache when the disk returns a non-empty blob.  A node missing
everywhere yields the empty blob without error.  `hashFn` stands for the
keccak hasher used on cache/disk hits. -/
def DiskLayerM.node (dl : DiskLayerM) (hashFn : Blob → Hash) (owner : Hash)
    (path : NodePath) : Except PathErr (Blob × Hash × NodeLocM × DiskLayerM) :=
  if dl.stale then .error .snapshotStale
  else
    match dl.buffer.node owner path with
    | some n => .ok (n.blob, n.hash, .dirtyCache, dl)
    | none =>
      let cached := dl.cachedBlob (owner, path)
      if 0 < cached.length then .ok (cached, hashFn cached, .cleanCache, dl)
      else
        let blob := dl.diskBlob owner path
        let dl' :=
          if dl.cleanNodes.isSome ∧ 0 < blob.length then
            { dl with cleanNodes := dl.cleanNodes.map (fun c => aset c (owner, path) blob) }
          else dl
        .ok (blob, hashFn blob, .diskLayer, dl')

/-- C3: for every disk layer, `node` consults the dirty buffer first, then
the clean node cache, then the key-value store (account-trie schema for the
zero owner, storage-trie schema otherwise), populating the clean cache on a
non-empty disk hit; a node missing everywhere yields an empty blob with no
error; and every read against a stale disk layer fails with the stale
error. -/
theorem diskLayer_node_reads (dl : DiskLayerM) (hashFn : Blob → Hash)
    (owner : Hash) (path : NodePath) :
    (dl.stale = true → dl.node hashFn owner path = .error .snapshotStale) ∧
    (dl.stale = false → ∀ n, dl.buffer.node owner path = some n →
      dl.node hashFn owner path = .ok (n.blob, n.hash, .dirtyCache, dl)) ∧
    (dl.stale = false → dl.buffer.node owner path = none →
      0 < (dl.cachedBlob (owner, path)).length →
      dl.node hashFn owner path =
        .ok (dl.cachedBlob (owner, path), hashFn (dl.cachedBlob (owner, path)),
          .cleanCache, dl)) ∧
    (dl.stale = false → dl.buffer.node owner path = none →
      (dl.cachedBlob (owner, path)).length = 0 →
      ∃ dl', dl.node hashFn owner path =
          .ok (dl.diskBlob owner path, hashFn (dl.diskBlob owner path), .diskLayer, dl') ∧
        (dl.cleanNodes.isSome ∧ 0 < (dl.diskBlob owner path).length →
          dl'.cleanNodes =
            dl.cleanNodes.map (fun c => aset c (owner, path) (dl.diskBlob owner path))) ∧
        ((dl.cleanNodes = none ∨ dl.diskBlob owner path = []) → dl' = dl) ∧
        dl'.db = dl.db) ∧
    (dl.stale = false → dl.buffer.node owner path = none →
      (dl.cachedBlob (owner, path)).length = 0 → dl.diskBlob owner path = [] →
      dl.node hashFn owner path = .ok ([], hashFn [], .diskLayer, dl)) ∧
    (owner = 0 → dl.diskBlob owner path = (dl.db.accountNodes path).getD []) ∧
    (owner ≠ 0 → dl.diskBlob owner path = (dl.db.storageNodes (owner, path)).getD []) := by
  refine ⟨?_, ?_, ?_, ?_, ?_, ?_, ?_⟩
  · intro hs
    simp [DiskLayerM.node, hs]
  · intro hs n hn
    simp [DiskLayerM.node, hs, hn]
  · intro hs hn hc
    simp [DiskLayerM.node, hs, hn, hc]
  · intro hs hn hc
    have hc' : ¬ 0 < (dl.cachedBlob (owner, path)).length := by omega
    by_cases hup : dl.cleanNodes.isSome ∧ 0 < (dl.diskBlob owner path).length
    · refine ⟨{ dl with cleanNodes :=
          dl.cleanNodes.map (fun c => aset c (owner, path) (dl.diskBlob owner path)) },
        ?_, ?_, ?_, rfl⟩
      · simp [DiskLayerM.node, hs, hn, hc', hup]
      · intro _
        rfl
      · rintro (hnone | hempty)
        · exact absurd (Option.isSome_iff_exists.mp hup.1) (by simp [hnone])
        · have := hup.2
          rw [hempty] at this
          exact absurd this (by simp)
    · refine ⟨dl, ?_, ?_, fun _ => rfl, rfl⟩
      · simp [DiskLayerM.node, hs, hn, hc', hup]
      · intro h
        exact absurd h hup
  · intro hs hn hc hd
    have hc' : ¬ 0 < (dl.cachedBlob (owner, path)).length := by omega
    have hup : ¬ (dl.cleanNodes.isSome ∧ 0 < (dl.diskBlob owner path).length) := by
      rw [hd]
      simp
    simp [DiskLayerM.node, hs, hn, hc', hup, hd]
  · intro h0
    simp [DiskLayerM.diskBlob, kvNodeRead, h0]
  · intro h0
    simp [DiskLayerM.diskBlob, kvNodeRead, h0]

/-- A concrete key-value store used by witnesses. -/
def kvW : KVStore where
  accountNodes := fun p => if p = [1] then some [9, 9] else none
  storageNodes := fun _ => none
  accountSnaps := fun _ => none
  storageSnaps := fun _ => none
  persistentStateID := 4
  snapshotRoot := 77

/-- A concrete disk layer used by witnesses: non-stale, an empty buffer, an
enabled but empty clean cache, one account-trie node `[1] ↦ [9, 9]` on disk. -/
def dlW : DiskLayerM where
  root := 77
  id := 4
  stale := false
  buffer := { layers := 0, limit := 1000, nodes := [], states := ⟨[], [], []⟩ }
  cleanNodes := some []
  db := kvW

/-- Witness for C3: on the concrete layer `dlW`, a read of the account-trie
node at path `[1]` misses the buffer and the clean cache, hits the disk, and
populates the clean cache with the blob `[9, 9]`. -/
theorem diskLayer_node_reads_witness :
    ∃ dl', dlW.node (fun _ => 5) 0 [1] =
        .ok (dlW.diskBlob 0 [1], 5, .diskLayer, dl') ∧
      (dlW.cleanNodes.isSome ∧ 0 < (dlW.diskBlob 0 [1]).length →
        dl'.cleanNodes =
          dlW.cleanNodes.map (fun c => aset c (0, [1]) (dlW.diskBlob 0 [1]))) ∧
      ((dlW.cleanNodes = none ∨ dlW.diskBlob 0 [1] = []) → dl' = dlW) ∧
      dl'.db = dlW.db :=
  (diskLayer_node_reads dlW (fun _ => 5) 0 [1]).2.2.2.1 rfl rfl rfl

/-! ### Flush correctness lemmas -/

/-- The result of writing a payload to the key-value store: an empty payload
deletes the key, a non-empty one stores it. -/
def tombOpt (v : Blob) : Option Blob := if v = [] then none else some v

theorem aget_eq_none_iff {κ α : Type} [DecidableEq κ] (m : List (κ × α)) (k : κ) :
    aget m k = none ↔ k ∉ m.map Prod.fst := by
  induction m with
  | nil => simp [aget]
  | cons hd tl ih =>
    by_cases h : hd.1 = k
    · simp [aget, h]
    · rw [aget, if_neg h, ih]
      simp only [List.map_cons, List.mem_cons, not_or]
      constructor
      · intro hk
        exact ⟨fun hh => h hh.symm, hk⟩
      · intro hk
        exact hk.2

/-- Lookup of a storage payload in an aggregated storage set. -/
def storageLookup (sd : List (Hash × List (Hash × Blob))) (a s : Hash) : Option Blob :=
  match aget sd a with
  | none => none
  | some slots => aget slots s

/-- Keys are unique on both levels of an aggregated node set. -/
def NodeSetNodup (ns : NodeSetM) : Prop :=
  (ns.map Prod.fst).Nodup ∧ ∀ e ∈ ns, (e.2.map Prod.fst).Nodup

/-- Keys are unique on both levels of an aggregated storage set. -/
def StorageNodup (sd : List (Hash × List (Hash × Blob))) : Prop :=
  (sd.map Prod.fst).Nodup ∧ ∀ e ∈ sd, (e.2.map Prod.fst).Nodup

theorem kvNodeRead_writeNodeOne_self (db : KVStore) (o : Hash) (p : NodePath) (n : NodeM) :
    kvNodeRead (writeNodeOne db o p n) o p = tombOpt n.blob := by
  unfold kvNodeRead writeNodeOne tombOpt kvSet kvDel
  by_cases ho : o = 0 <;> by_cases hb : n.blob = [] <;> simp [ho, hb]

theorem kvNodeRead_writeNodeOne_other (db : KVStore) (o : Hash) (p : NodePath) (n : NodeM)
    (o' : Hash) (p' : NodePath) (h : ¬(o' = o ∧ p' = p)) :
    kvNodeRead (writeNodeOne db o p n) o' p' = kvNodeRead db o' p' := by
  unfold kvNodeRead writeNodeOne kvSet kvDel
  by_cases ho : o = 0 <;> by_cases ho' : o' = 0 <;> by_cases hb : n.blob = [] <;>
      simp only [ho, ho', hb, if_true, if_false, if_pos, if_neg, not_false_iff] <;>
      first
        | rfl
        | (simp only [if_pos rfl, if_neg ho, if_neg ho', Prod.mk.injEq]
           split <;> simp_all)
        | (split <;> simp_all)

theorem writeNodeOne_stateFields (db : KVStore) (o : Hash) (p : NodePath) (n : NodeM) :
    (writeNodeOne db o p n).accountSnaps = db.accountSnaps ∧
    (writeNodeOne db o p n).storageSnaps = db.storageSnaps ∧
    (writeNodeOne db o p n).persistentStateID = db.persistentStateID ∧
    (writeNodeOne db o p n).snapshotRoot = db.snapshotRoot := by
  unfold writeNodeOne
  split <;> split <;> exact ⟨rfl, rfl, rfl, rfl⟩

theorem writeNodesOwner_stateFields (o : Hash) (sub : List (NodePath × NodeM)) :
    ∀ db : KVStore,
      (writeNodesOwner db o sub).accountSnaps = db.accountSnaps ∧
      (writeNodesOwner db o sub).storageSnaps = db.storageSnaps ∧
      (writeNodesOwner db o sub).persistentStateID = db.persistentStateID ∧
      (writeNodesOwner db o sub).snapshotRoot = db.snapshotRoot := by
  induction sub with
  | nil => intro db; exact ⟨rfl, rfl, rfl, rfl⟩
  | cons pn rest ih =>
    intro db
    have h1 := writeNodeOne_stateFields db o pn.1 pn.2
    have h2 := ih (writeNodeOne db o pn.1 pn.2)
    exact ⟨h2.1.trans h1.1, h2.2.1.trans h1.2.1, h2.2.2.1.trans h1.2.2.1,
      h2.2.2.2.trans h1.2.2.2⟩

theorem writeNodesM_stateFields (ns : NodeSetM) :
    ∀ db : KVStore,
      (writeNodesM db ns).accountSnaps = db.accountSnaps ∧
      (writeNodesM db ns).storageSnaps = db.storageSnaps ∧
      (writeNodesM db ns).persistentStateID = db.persistentStateID ∧
      (writeNodesM db ns).snapshotRoot = db.snapshotRoot := by
  induction ns with
  | nil => intro db; exact ⟨rfl, rfl, rfl, rfl⟩
  | cons ow rest ih =>
    intro db
    have h1 := writeNodesOwner_stateFields ow.1 ow.2 db
    have h2 := ih (writeNodesOwner db ow.1 ow.2)
    exact ⟨h2.1.trans h1.1, h2.2.1.trans h1.2.1, h2.2.2.1.trans h1.2.2.1,
      h2.2.2.2.trans h1.2.2.2⟩

theorem destructOne_nodeFields (db : KVStore) (h : Hash) :
    (destructOne db h).accountNodes = db.accountNodes ∧
    (destructOne db h).storageNodes = db.storageNodes ∧
    (destructOne db h).persistentStateID = db.persistentStateID ∧
    (destructOne db h).snapshotRoot = db.snapshotRoot :=
  ⟨rfl, rfl, rfl, rfl⟩

theorem writeDestructs_nodeFields (ds : List Hash) :
    ∀ db : KVStore,
      (writeDestructs db ds).accountNodes = db.accountNodes ∧
      (writeDestructs db ds).storageNodes = db.storageNodes ∧
      (writeDestructs db ds).persistentStateID = db.persistentStateID ∧
      (writeDestructs db ds).snapshotRoot = db.snapshotRoot := by
  induction ds with
  | nil => intro db; exact ⟨rfl, rfl, rfl, rfl⟩
  | cons d rest ih =>
    intro db
    have h1 := destructOne_nodeFields db d
    have h2 := ih (destructOne db d)
    exact ⟨h2.1.trans h1.1, h2.2.1.trans h1.2.1, h2.2.2.1.trans h1.2.2.1,
      h2.2.2.2.trans h1.2.2.2⟩

theorem writeAccountOne_otherFields (db : KVStore) (progress : Option Hash)
    (hv : Hash × Blob) :
    (writeAccountOne db progress hv).accountNodes = db.accountNodes ∧
    (writeAccountOne db progress hv).storageNodes = db.storageNodes ∧
    (writeAccountOne db progress hv).storageSnaps = db.storageSnaps ∧
    (writeAccountOne db progress hv).persistentStateID = db.persistentStateID ∧
    (writeAccountOne db progress hv).snapshotRoot = db.snapshotRoot := by
  unfold writeAccountOne
  split
  · exact ⟨rfl, rfl, rfl, rfl, rfl⟩
  · split
    · exact ⟨rfl, rfl, rfl, rfl, rfl⟩
    · exact ⟨rfl, rfl, rfl, rfl, rfl⟩

theorem writeAccountsM_otherFields (ad : List (Hash × Blob)) (progress : Option Hash) :
    ∀ db : KVStore,
      (writeAccountsM db progress ad).accountNodes = db.accountNodes ∧
      (writeAccountsM db progress ad).storageNodes = db.storageNodes ∧
      (writeAccountsM db progress ad).storageSnaps = db.storageSnaps ∧
      (writeAccountsM db progress ad).persistentStateID = db.persistentStateID ∧
      (writeAccountsM db progress ad).snapshotRoot = db.snapshotRoot := by
  induction ad with
  | nil => intro db; exact ⟨rfl, rfl, rfl, rfl, rfl⟩
  | cons hv rest ih =>
    intro db
    have h1 := writeAccountOne_otherFields db progress hv
    have h2 := ih (writeAccountOne db progress hv)
    exact ⟨h2.1.trans h1.1, h2.2.1.trans h1.2.1, h2.2.2.1.trans h1.2.2.1,
      h2.2.2.2.1.trans h1.2.2.2.1, h2.2.2.2.2.trans h1.2.2.2.2⟩

theorem writeSlotOne_otherFields (db : KVStore) (progress : Option Hash) (a : Hash)
    (sv : Hash × Blob) :
    (writeSlotOne db progress a sv).accountNodes = db.accountNodes ∧
    (writeSlotOne db progress a sv).storageNodes = db.storageNodes ∧
    (writeSlotOne db progress a sv).accountSnaps = db.accountSnaps ∧
    (writeSlotOne db progress a sv).persistentStateID = db.persistentStateID ∧
    (writeSlotOne db progress a sv).snapshotRoot = db.snapshotRoot := by
  unfold writeSlotOne
  split
  · exact ⟨rfl, rfl, rfl, rfl, rfl⟩
  · split
    · exact ⟨rfl, rfl, rfl, rfl, rfl⟩
    · exact ⟨rfl, rfl, rfl, rfl, rfl⟩

theorem writeStoragesOwner_otherFields (a : Hash) (slots : List (Hash × Blob))
    (progress : Option Hash) :
    ∀ db : KVStore,
      (writeStoragesOwner db progress a slots).accountNodes = db.accountNodes ∧
      (writeStoragesOwner db progress a slots).storageNodes = db.storageNodes ∧
      (writeStoragesOwner db progress a slots).accountSnaps = db.accountSnaps ∧
      (writeStoragesOwner db progress a slots).persistentStateID = db.persistentStateID ∧
      (writeStoragesOwner db progress a slots).snapshotRoot = db.snapshotRoot := by
  induction slots with
  | nil => intro db; exact ⟨rfl, rfl, rfl, rfl, rfl⟩
  | cons sv rest ih =>
    intro db
    have h1 := writeSlotOne_otherFields db progress a sv
    have h2 := ih (writeSlotOne db progress a sv)
    exact ⟨h2.1.trans h1.1, h2.2.1.trans h1.2.1, h2.2.2.1.trans h1.2.2.1,
      h2.2.2.2.1.trans h1.2.2.2.1, h2.2.2.2.2.trans h1.2.2.2.2⟩

theorem writeStoragesM_otherFields (sd : List (Hash × List (Hash × Blob)))
    (progress : Option Hash) :
    ∀ db : KVStore,
      (writeStoragesM db progress sd).accountNodes = db.accountNodes ∧
      (writeStoragesM db progress sd).storageNodes = db.storageNodes ∧
      (writeStoragesM db progress sd).accountSnaps = db.accountSnaps ∧
      (writeStoragesM db progress sd).persistentStateID = db.persistentStateID ∧
      (writeStoragesM db progress sd).snapshotRoot = db.snapshotRoot := by
  induction sd with
  | nil => intro db; exact ⟨rfl, rfl, rfl, rfl, rfl⟩
  | cons hs rest ih =>
    intro db
    have h1 := writeStoragesOwner_otherFields hs.1 hs.2 progress db
    have h2 := ih (writeStoragesOwner db progress hs.1 hs.2)
    exact ⟨h2.1.trans h1.1, h2.2.1.trans h1.2.1, h2.2.2.1.trans h1.2.2.1,
      h2.2.2.2.1.trans h1.2.2.2.1, h2.2.2.2.2.trans h1.2.2.2.2⟩

theorem writeDestructs_accountSnaps (ds : List Hash) :
    ∀ (db : KVStore) (h : Hash),
      (writeDestructs db ds).accountSnaps h =
        if h ∈ ds then none else db.accountSnaps h := by
  induction ds with
  | nil => intro db h; simp [writeDestructs]
  | cons d rest ih =>
    intro db h
    have step : writeDestructs db (d :: rest) = writeDestructs (destructOne db d) rest := rfl
    rw [step, ih]
    by_cases hr : h ∈ rest
    · simp [hr]
    · by_cases hd : h = d
      · simp [hr, hd, destructOne, kvDel]
      · simp [hr, hd, destructOne, kvDel, fun hh => hd hh]

theorem writeDestructs_storageSnaps (ds : List Hash) :
    ∀ (db : KVStore) (a s : Hash),
      (writeDestructs db ds).storageSnaps (a, s) =
        if a ∈ ds then none else db.storageSnaps (a, s) := by
  induction ds with
  | nil => intro db a s; simp [writeDestructs]
  | cons d rest ih =>
    intro db a s
    have step : writeDestructs db (d :: rest) = writeDestructs (destructOne db d) rest := rfl
    rw [step, ih]
    by_cases hr : a ∈ rest
    · simp [hr]
    · by_cases hd : a = d
      · simp [hr, hd, destructOne]
      · simp [hr, hd, destructOne]

theorem writeAccountsM_read (ad : List (Hash × Blob))
    (hnd : (ad.map Prod.fst).Nodup) :
    ∀ (db : KVStore) (h : Hash),
      (writeAccountsM db none ad).accountSnaps h =
        match aget ad h with
        | some v => tombOpt v
        | none => db.accountSnaps h := by
  induction ad with
  | nil => intro db h; simp [writeAccountsM, aget]
  | cons hv rest ih =>
    intro db h
    simp only [List.map_cons, List.nodup_cons] at hnd
    have step : writeAccountsM db none (hv :: rest)
        = writeAccountsM (writeAccountOne db none hv) none rest := rfl
    rw [step, ih hnd.2]
    have hone : (writeAccountOne db none hv).accountSnaps h =
        if h = hv.1 then tombOpt hv.2 else db.accountSnaps h := by
      unfold writeAccountOne progressSkip tombOpt kvDel kvSet
      by_cases hb : hv.2 = [] <;> simp [hb]
    by_cases hh : hv.1 = h
    · have hrest : aget rest h = none := by
        rw [aget_eq_none_iff]
        rw [hh] at hnd
        exact hnd.1
      have hcons : aget (hv :: rest) h = some hv.2 := by simp [aget, hh]
      rw [hrest, hcons]
      show (writeAccountOne db none hv).accountSnaps h = tombOpt hv.2
      rw [hone, if_pos hh.symm]
    · rw [show aget (hv :: rest) h = aget rest h from by simp [aget, hh]]
      cases hr : aget rest h with
      | some v => simp
      | none =>
        simp only []
        rw [hone, if_neg (fun hc => hh hc.symm)]

theorem writeStoragesOwner_read_self (a : Hash) (slots : List (Hash × Blob))
    (hnd : (slots.map Prod.fst).Nodup) :
    ∀ (db : KVStore) (s : Hash),
      (writeStoragesOwner db none a slots).storageSnaps (a, s) =
        match aget slots s with
        | some v => tombOpt v
        | none => db.storageSnaps (a, s) := by
  induction slots with
  | nil => intro db s; simp [writeStoragesOwner, aget]
  | cons sv rest ih =>
    intro db s
    simp only [List.map_cons, List.nodup_cons] at hnd
    have step : writeStoragesOwner db none a (sv :: rest)
        = writeStoragesOwner (writeSlotOne db none a sv) none a rest := rfl
    rw [step, ih hnd.2]
    have hone : (writeSlotOne db none a sv).storageSnaps (a, s) =
        if s = sv.1 then tombOpt sv.2 else db.storageSnaps (a, s) := by
      unfold writeSlotOne progressSkip tombOpt kvDel kvSet
      by_cases hb : sv.2 = [] <;> by_cases hs : s = sv.1 <;> simp [hb, hs]
    by_cases hh : sv.1 = s
    · have hrest : aget rest s = none := by
        rw [aget_eq_none_iff]
        rw [hh] at hnd
        exact hnd.1
      have hcons : aget (sv :: rest) s = some sv.2 := by simp [aget, hh]
      rw [hrest, hcons]
      show (writeSlotOne db none a sv).storageSnaps (a, s) = tombOpt sv.2
      rw [hone, if_pos hh.symm]
    · rw [show aget (sv :: rest) s = aget rest s from by simp [aget, hh]]
      cases hr : aget rest s with
      | some v => simp
      | none =>
        simp only []
        rw [hone, if_neg (fun hc => hh hc.symm)]

theorem writeStoragesOwner_read_other (a : Hash) (slots : List (Hash × Blob))
    (progress : Option Hash) :
    ∀ (db : KVStore) (a' s : Hash), a' ≠ a →
      (writeStoragesOwner db progress a slots).storageSnaps (a', s) =
        db.storageSnaps (a', s) := by
  induction slots with
  | nil => intro db a' s _; rfl
  | cons sv rest ih =>
    intro db a' s hne
    have step : writeStoragesOwner db progress a (sv :: rest)
        = writeStoragesOwner (writeSlotOne db progress a sv) progress a rest := rfl
    rw [step, ih _ _ _ hne]
    unfold writeSlotOne kvDel kvSet
    split
    · rfl
    · split <;> simp [Prod.ext_iff, hne]

theorem writeStoragesM_read (sd : List (Hash × List (Hash × Blob)))
    (hnd : StorageNodup sd) :
    ∀ (db : KVStore) (a s : Hash),
      (writeStoragesM db none sd).storageSnaps (a, s) =
        match storageLookup sd a s with
        | some v => tombOpt v
        | none => db.storageSnaps (a, s) := by
  induction sd with
  | nil => intro db a s; simp [writeStoragesM, storageLookup, aget]
  | cons hs rest ih =>
    intro db a s
    obtain ⟨hnd1, hnd2⟩ := hnd
    simp only [List.map_cons, List.nodup_cons] at hnd1
    have hrestnd : StorageNodup rest :=
      ⟨hnd1.2, fun e he => hnd2 e (List.mem_cons_of_mem _ he)⟩
    have step : writeStoragesM db none (hs :: rest)
        = writeStoragesM (writeStoragesOwner db none hs.1 hs.2) none rest := rfl
    rw [step, ih hrestnd]
    by_cases hh : hs.1 = a
    · have hrest : aget rest a = none := by
        rw [aget_eq_none_iff]
        rw [hh] at hnd1
        exact hnd1.1
      have hlkrest : storageLookup rest a s = none := by
        unfold storageLookup
        rw [hrest]
      rw [hlkrest]
      have hlk : storageLookup (hs :: rest) a s = aget hs.2 s := by
        unfold storageLookup
        simp [aget, hh]
      rw [hlk]
      subst hh
      rw [writeStoragesOwner_read_self hs.1 hs.2 (hnd2 hs (List.mem_cons_self _ _))]
    · have hlk : storageLookup (hs :: rest) a s = storageLookup rest a s := by
        unfold storageLookup
        simp [aget, hh]
      rw [hlk]
      cases hr : storageLookup rest a s with
      | some v => simp
      | none =>
        simp only []
        exact writeStoragesOwner_read_other hs.1 hs.2 none db a s (fun hc => hh hc.symm)

theorem writeNodesOwner_read (o : Hash) (sub : List (NodePath × NodeM))
    (hnd : (sub.map Prod.fst).Nodup) :
    ∀ (db : KVStore) (o' : Hash) (p : NodePath),
      kvNodeRead (writeNodesOwner db o sub) o' p =
        if o' = o then
          match aget sub p with
          | some n => tombOpt n.blob
          | none => kvNodeRead db o' p
        else kvNodeRead db o' p := by
  induction sub with
  | nil =>
    intro db o' p
    split <;> simp [writeNodesOwner, aget]
  | cons pn rest ih =>
    intro db o' p
    simp only [List.map_cons, List.nodup_cons] at hnd
    have step : writeNodesOwner db o (pn :: rest)
        = writeNodesOwner (writeNodeOne db o pn.1 pn.2) o rest := rfl
    rw [step, ih hnd.2]
    by_cases ho : o' = o
    · simp only [ho, if_pos rfl]
      by_cases hp : pn.1 = p
      · have hrest : aget rest p = none := by
          rw [aget_eq_none_iff]
          rw [hp] at hnd
          exact hnd.1
        rw [hrest]
        simp only []
        rw [show aget (pn :: rest) p = some pn.2 from by simp [aget, hp]]
        subst hp
        exact kvNodeRead_writeNodeOne_self db o pn.1 pn.2
      · rw [show aget (pn :: rest) p = aget rest p from by simp [aget, hp]]
        cases hr : aget rest p with
        | some n => simp
        | none =>
          simp only []
          exact kvNodeRead_writeNodeOne_other db o pn.1 pn.2 o p
            (fun hc => hp hc.2.symm)
    · simp only [ho, if_neg ho]
      exact kvNodeRead_writeNodeOne_other db o pn.1 pn.2 o' p (fun hc => ho hc.1)

theorem writeNodesM_read (ns : NodeSetM) (hnd : NodeSetNodup ns) :
    ∀ (db : KVStore) (o : Hash) (p : NodePath),
      kvNodeRead (writeNodesM db ns) o p =
        match nodeSetLookup ns o p with
        | some n => tombOpt n.blob
        | none => kvNodeRead db o p := by
  induction ns with
  | nil => intro db o p; simp [writeNodesM, nodeSetLookup, aget]
  | cons ow rest ih =>
    intro db o p
    obtain ⟨hnd1, hnd2⟩ := hnd
    simp only [List.map_cons, List.nodup_cons] at hnd1
    have hrestnd : NodeSetNodup rest :=
      ⟨hnd1.2, fun e he => hnd2 e (List.mem_cons_of_mem _ he)⟩
    have step : writeNodesM db (ow :: rest)
        = writeNodesM (writeNodesOwner db ow.1 ow.2) rest := rfl
    rw [step, ih hrestnd]
    by_cases hh : ow.1 = o
    · have hrest : aget rest o = none := by
        rw [aget_eq_none_iff]
        rw [hh] at hnd1
        exact hnd1.1
      have hlkrest : nodeSetLookup rest o p = none := by
        unfold nodeSetLookup
        rw [hrest]
      rw [hlkrest]
      have hlk : nodeSetLookup (ow :: rest) o p = aget ow.2 p := by
        unfold nodeSetLookup
        simp [aget, hh]
      rw [hlk]
      subst hh
      rw [writeNodesOwner_read ow.1 ow.2 (hnd2 ow (List.mem_cons_self _ _)), if_pos rfl]
    · have hlk : nodeSetLookup (ow :: rest) o p = nodeSetLookup rest o p := by
        unfold nodeSetLookup
        simp [aget, hh]
      rw [hlk]
      cases hr : nodeSetLookup rest o p with
      | some n => simp
      | none =>
        simp only []
        rw [writeNodesOwner_read ow.1 ow.2 (hnd2 ow (List.mem_cons_self _ _)),
          if_neg (fun hc => hh hc.symm)]

theorem kvNodeRead_writeStatesM (db : KVStore) (progress : Option Hash) (st : StateSetM)
    (o : Hash) (p : NodePath) :
    kvNodeRead (writeStatesM db progress st) o p = kvNodeRead db o p := by
  have h3 := writeStoragesM_otherFields st.storageData progress
    (writeAccountsM (writeDestructs db st.destructSet) progress st.accountData)
  have h2 := writeAccountsM_otherFields st.accountData progress
    (writeDestructs db st.destructSet)
  have h1 := writeDestructs_nodeFields st.destructSet db
  unfold writeStatesM kvNodeRead
  rw [h3.1, h3.2.1, h2.1, h2.2.1, h1.1, h1.2.1]

/-- C4: `buffer.flush` returns an error (writing nothing) when the persisted
state id plus the buffered layer count does not equal the requested id; on
success it writes all aggregated nodes and state records together with the
new persistent state id and the snapshot root in one atomic batch, and the
buffer is reset afterwards (`layers = 0` and `empty` holds).  The write
contents are stated for a quiescent snapshot generator (`progress = none`)
and key-unique aggregated sets. -/
theorem buffer_flush_spec (b : BufferM) (root : Hash) (db : KVStore) (id : Nat) :
    (db.persistentStateID + b.layers ≠ id →
      b.flush root db none id = .error .idMismatch) ∧
    (db.persistentStateID + b.layers = id →
      ∃ b' db', b.flush root db none id = .ok (b', db') ∧
        b' = b.reset ∧ b'.layers = 0 ∧ b'.empty = true ∧
        db'.persistentStateID = id ∧ db'.snapshotRoot = root ∧
        (NodeSetNodup b.nodes → ∀ o p n, nodeSetLookup b.nodes o p = some n →
          kvNodeRead db' o p = tombOpt n.blob) ∧
        ((b.states.accountData.map Prod.fst).Nodup → ∀ h v,
          aget b.states.accountData h = some v → db'.accountSnaps h = tombOpt v) ∧
        (StorageNodup b.states.storageData → ∀ a s v,
          storageLookup b.states.storageData a s = some v →
          db'.storageSnaps (a, s) = tombOpt v) ∧
        ((b.states.accountData.map Prod.fst).Nodup → ∀ h, h ∈ b.states.destructSet →
          aget b.states.accountData h = none → db'.accountSnaps h = none) ∧
        (StorageNodup b.states.storageData → ∀ h s, h ∈ b.states.destructSet →
          storageLookup b.states.storageData h s = none →
          db'.storageSnaps (h, s) = none)) := by
  constructor
  · intro hne
    simp [BufferM.flush, hne]
  · intro hid
    refine ⟨b.reset,
      { writeStatesM (writeNodesM db b.nodes) none b.states with
          persistentStateID := id, snapshotRoot := root }, ?_, rfl, rfl, rfl, rfl, rfl,
      ?_, ?_, ?_, ?_, ?_⟩
    · simp [BufferM.flush, hid]
    · intro hnd o p n hlk
      show kvNodeRead (writeStatesM (writeNodesM db b.nodes) none b.states) o p
        = tombOpt n.blob
      rw [kvNodeRead_writeStatesM, writeNodesM_read b.nodes hnd, hlk]
    · intro hnd h v hlk
      show (writeStatesM (writeNodesM db b.nodes) none b.states).accountSnaps h
        = tombOpt v
      unfold writeStatesM
      rw [(writeStoragesM_otherFields b.states.storageData none _).2.2.1,
        writeAccountsM_read b.states.accountData hnd, hlk]
    · intro hnd a s v hlk
      show (writeStatesM (writeNodesM db b.nodes) none b.states).storageSnaps (a, s)
        = tombOpt v
      unfold writeStatesM
      rw [writeStoragesM_read b.states.storageData hnd, hlk]
    · intro hnd h hdes hnone
      show (writeStatesM (writeNodesM db b.nodes) none b.states).accountSnaps h = none
      unfold writeStatesM
      rw [(writeStoragesM_otherFields b.states.storageData none _).2.2.1,
        writeAccountsM_read b.states.accountData hnd, hnone]
      simp only []
      rw [writeDestructs_accountSnaps, if_pos hdes]
    · intro hnd h s hdes hnone
      show (writeStatesM (writeNodesM db b.nodes) none b.states).storageSnaps (h, s) = none
      unfold writeStatesM
      rw [writeStoragesM_read b.states.storageData hnd, hnone]
      simp only []
      rw [(writeAccountsM_otherFields b.states.accountData none _).2.2.1,
        writeDestructs_storageSnaps, if_pos hdes]

/-- A concrete buffer for the C4 witness: two aggregated layers, one account
trie node, one destruct, one account payload, one storage payload. -/
def bW : BufferM :=
  { layers := 2, limit := 1000,
    nodes := [(0, [([1], ⟨3, [7]⟩)])],
    states := ⟨[12], [(10, [5])], [(10, [(2, [6])])]⟩ }

/-- A concrete empty store with persisted state id 4 for the C4 witness. -/
def dbW0 : KVStore :=
  { accountNodes := fun _ => none, storageNodes := fun _ => none,
    accountSnaps := fun _ => none, storageSnaps := fun _ => none,
    persistentStateID := 4, snapshotRoot := 9 }

/-- Witness for C4: flushing `bW` on `dbW0` at the mismatching id 7 fails,
and at the correct id 6 = 4 + 2 succeeds with the buffer reset and the new
id and snapshot root persisted. -/
theorem buffer_flush_spec_witness :
    bW.flush 42 dbW0 none 7 = .error .idMismatch ∧
    ∃ b' db', bW.flush 42 dbW0 none 6 = .ok (b', db') ∧ b'.layers = 0 ∧
      b'.empty = true ∧ db'.persistentStateID = 6 ∧ db'.snapshotRoot = 42 := by
  refine ⟨(buffer_flush_spec bW 42 dbW0 7).1 (by decide), ?_⟩
  obtain ⟨b', db', heq, _, hl, he, hid, hrt, _⟩ :=
    (buffer_flush_spec bW 42 dbW0 6).2 (by decide)
  exact ⟨b', db', heq, hl, he, hid, hrt⟩

/-! ### Revert guards (triedb/pathdb/buffer.go, disklayer.go) -/

/-- Modelled from the spec (pathdb nodes.go `nodeSet.revert` is not in src/):
the reverse node set overwrites the aggregated nodes entry by entry. -/
def nodesRevertM (ns : NodeSetM) (rev : NodeSetM) : NodeSetM :=
  rev.foldl (fun ns ow => ow.2.foldl (fun ns pn => nodeSetSet ns ow.1 pn.1 pn.2) ns) ns

/-- Modelled from the spec (pathdb states.go `stateSet.revert` is not in
src/): the reverse account and storage payloads overwrite the aggregated flat
states entry by entry. -/
def statesRevertM (st : StateSetM) (accounts : List (Hash × Blob))
    (storages : List (Hash × List (Hash × Blob))) : StateSetM :=
  { st with
    accountData := accounts.foldl (fun m hv => aset m hv.1 hv.2) st.accountData,
    storageData := storages.foldl (fun m hs =>
      aset m hs.1 (hs.2.foldl (fun sub sv => aset sub sv.1 sv.2)
        ((aget m hs.1).getD []))) st.storageData }

/-- `buffer.revert` (src/triedb/pathdb/buffer.go): rolls back the most recent
aggregated state transition.  With zero aggregated layers it fails with the
unrecoverable-state error; when the last remaining layer is reverted the
whole buffer is reset; otherwise the reverse diff is merged in and the layer
count decremented.  (`db` is the key-value reader passed through to the node
revert; it does not affect the embedded control flow.) -/
def BufferM.revert (b : BufferM) (db : KVStore) (nodes : NodeSetM)
    (accounts : List (Hash × Blob)) (storages : List (Hash × List (Hash × Blob))) :
    Except PathErr BufferM :=
  if b.layers = 0 then .error .stateUnrecoverable
  else
    let b1 : BufferM := { b with layers := b.layers - 1 }
    if b1.layers = 0 then .ok b1.reset
    else .ok { b1 with nodes := nodesRevertM b1.nodes nodes,
                       states := statesRevertM b1.states accounts storages }

/-- A state history entry (`history`), with account addresses already hashed
(the Go code hashes the plain addresses before applying them). -/
structure HistoryM where
  parent : Hash
  root : Hash
  accounts : List (Hash × Blob)
  storages : List (Hash × List (Hash × Blob))

/-- `diskLayer.revert` (src/triedb/pathdb/disklayer.go): applies a state
history entry and returns the reverted disk layer.  It fails with the
unexpected-history error when the entry's root disagrees with the layer's
root and with the unrecoverable-state error when the layer's id is zero.
Otherwise the reverse diff is either merged into the non-empty buffer, or
written directly to the persistent state in one atomic batch together with
the decremented persistent state id and the parent snapshot root.  `nodes`
stands for the reverse node set computed by the external trie solver
(`apply`). -/
def DiskLayerM.revert (dl : DiskLayerM) (h : HistoryM) (nodes : NodeSetM) :
    Except PathErr DiskLayerM :=
  if h.root ≠ dl.root then .error .unexpectedHistory
  else if dl.id = 0 then .error .stateUnrecoverable
  else if dl.buffer.empty = false then
    match dl.buffer.revert dl.db nodes h.accounts h.storages with
    | .error e => .error e
    | .ok b' => .ok { dl with root := h.parent, id := dl.id - 1, buffer := b' }
  else
    let db1 := writeNodesM dl.db nodes
    let db2 := writeStatesM db1 none ⟨[], h.accounts, h.storages⟩
    .ok { dl with
          root := h.parent
          id := dl.id - 1
          db := { db2 with persistentStateID := dl.id - 1, snapshotRoot := h.parent } }

/-- C6: reverting past the bottom always fails leaving the state unchanged:
`buffer.revert` fails with the unrecoverable-state error iff the buffer holds
zero layers, and reverting the last remaining layer leaves an empty buffer;
`diskLayer.revert` fails with the unexpected-history error whenever the
history entry's root differs from the disk root, fails with the
unrecoverable-state error when the roots agree but the layer's id is zero,
and fails in every case where the id is zero. -/
theorem revert_bottom_guards (b : BufferM) (db : KVStore) (ns : NodeSetM)
    (accs : List (Hash × Blob)) (stors : List (Hash × List (Hash × Blob)))
    (dl : DiskLayerM) (h : HistoryM) (rn : NodeSetM) :
    (b.layers = 0 → b.revert db ns accs stors = .error .stateUnrecoverable) ∧
    (b.layers ≠ 0 → ∃ b2, b.revert db ns accs stors = .ok b2) ∧
    (b.layers = 1 → b.revert db ns accs stors = .ok ({ b with layers := 0 }.reset) ∧
      ({ b with layers := 0 } : BufferM).reset.empty = true) ∧
    (h.root ≠ dl.root → dl.revert h rn = .error .unexpectedHistory) ∧
    (h.root = dl.root → dl.id = 0 → dl.revert h rn = .error .stateUnrecoverable) ∧
    (dl.id = 0 → ∃ e, dl.revert h rn = .error e) := by
  refine ⟨?_, ?_, ?_, ?_, ?_, ?_⟩
  · intro h0
    simp [BufferM.revert, h0]
  · intro h0
    by_cases h1 : b.layers - 1 = 0
    · exact ⟨({ b with layers := b.layers - 1 } : BufferM).reset,
        by simp [BufferM.revert, h0, h1]⟩
    · exact ⟨{ b with layers := b.layers - 1
                      nodes := nodesRevertM b.nodes ns
                      states := statesRevertM b.states accs stors },
        by simp [BufferM.revert, h0, h1]⟩
  · intro h1
    constructor
    · simp [BufferM.revert, h1]
    · rfl
  · intro hne
    simp [DiskLayerM.revert, hne]
  · intro heq h0
    simp [DiskLayerM.revert, heq, h0]
  · intro h0
    by_cases hne : h.root ≠ dl.root
    · exact ⟨.unexpectedHistory, by simp [DiskLayerM.revert, hne]⟩
    · refine ⟨.stateUnrecoverable, ?_⟩
      rw [not_ne_iff] at hne
      simp [DiskLayerM.revert, hne, h0]

/-- A concrete one-layer buffer for the C6 witness. -/
def bW1 : BufferM := { layers := 1, limit := 1000, nodes := [], states := ⟨[], [], []⟩ }

/-- A concrete disk layer with id 0 for the C6 witness. -/
def dlW0 : DiskLayerM :=
  { root := 77, id := 0, stale := false, buffer := bW1, cleanNodes := none, db := kvW }

/-- Witness for C6: on concrete inputs, an empty buffer fails to revert, the
one-layer buffer `bW1` reverts to an empty buffer, and `dlW0` (id 0) rejects
both a mismatching history entry (root 78) and a matching one (root 77). -/
theorem revert_bottom_guards_witness :
    bW1.reset.revert kvW [] [] [] = .error .stateUnrecoverable ∧
    (bW1.revert kvW [] [] [] = .ok ({ bW1 with layers := 0 }.reset) ∧
      ({ bW1 with layers := 0 } : BufferM).reset.empty = true) ∧
    dlW0.revert ⟨5, 78, [], []⟩ [] = .error .unexpectedHistory ∧
    dlW0.revert ⟨5, 77, [], []⟩ [] = .error .stateUnrecoverable :=
  ⟨(revert_bottom_guards bW1.reset kvW [] [] [] dlW0 ⟨5, 78, [], []⟩ []).1 rfl,
   (revert_bottom_guards bW1 kvW [] [] [] dlW0 ⟨5, 78, [], []⟩ []).2.2.1 rfl,
   (revert_bottom_guards bW1 kvW [] [] [] dlW0 ⟨5, 78, [], []⟩ []).2.2.2.1 (by decide),
   (revert_bottom_guards bW1 kvW [] [] [] dlW0 ⟨5, 77, [], []⟩ []).2.2.2.2.1 rfl rfl⟩

/-! ### The layer tree (triedb/pathdb/layertree.go, lookup.go)

Layers are embedded as records linked by parent roots: `parent = none` marks
the disk layer, `parent = some r` a diff layer whose parent is the layer
rooted at `r`.  Only the touched key sets matter to the tree structure and
the lookup index, so the per-layer content is kept at the key level. -/

/-- One layer of the tree.  Modelled from the spec for the record itself
(pathdb difflayer.go is not in src/); all the operations on it below follow
src/triedb/pathdb/layertree.go and lookup.go. -/
structure LayerRec where
  root : Hash
  id : Nat
  block : Nat
  parent : Option Hash
  nodes : List (Hash × List NodePath)
  destructSet : List Hash
  accountData : List Hash
  storageData : List (Hash × List Hash)
deriving DecidableEq

/-- The per-key fast lookup index (`lookup`): for every key, the ordered
list (oldest first) of the roots of the diff layers that modified it. -/
structure Lookup where
  nodes : List (Hash × List (NodePath × List Hash))
  destructs : List (Hash × List Hash)
  accounts : List (Hash × List Hash)
  storages : List (Hash × List (Hash × List Hash))
deriving DecidableEq

/-- The lookup over a bare disk layer (`newLookup` on a disk-only chain). -/
def Lookup.emptyIdx : Lookup := ⟨[], [], [], []⟩

/-- `lookup.addLayer`: append the diff layer's root to the list of every key
the layer touches (nodes, destructs, accounts and storage slots). -/
def Lookup.addLayer (lk : Lookup) (l : LayerRec) : Lookup :=
  let state := l.root
  { nodes := l.nodes.foldl (fun m ow =>
      aset m ow.1 (ow.2.foldl (fun sub p => aappend sub p state)
        ((aget m ow.1).getD []))) lk.nodes
    destructs := l.destructSet.foldl (fun m h => aappend m h state) lk.destructs
    accounts := l.accountData.foldl (fun m h => aappend m h state) lk.accounts
    storages := l.storageData.foldl (fun m ow =>
      aset m ow.1 (ow.2.foldl (fun sub h => aappend sub h state)
        ((aget m ow.1).getD []))) lk.storages }

/-- Remove the first occurrence of `s` from a list of roots. -/
def removeFirst (xs : List Hash) (s : Hash) : List Hash :=
  match xs with
  | [] => []
  | x :: r => if x = s then r else x :: removeFirst r s

/-- Remove `state` from the list bound at `k`, dropping the binding when the
list becomes empty. -/
def removeAt (m : List (Hash × List Hash)) (k state : Hash) : List (Hash × List Hash) :=
  let xs := removeFirst ((aget m k).getD []) state
  if xs = [] then adel m k else aset m k xs

/-- `lookup.removeLayer`: remove the layer's root from the list of every key
it touches, dropping keys whose lists become empty.  (The Go version reports
an error when a root is absent; `cap` discards that error, so the removal is
embedded as a total function.) -/
def Lookup.removeLayer (lk : Lookup) (l : LayerRec) : Lookup :=
  let state := l.root
  { nodes := l.nodes.foldl (fun m ow =>
      let sub := ow.2.foldl (fun sub p =>
        let xs := removeFirst ((aget sub p).getD []) state
        if xs = [] then adel sub p else aset sub p xs) ((aget m ow.1).getD [])
      if sub = [] then adel m ow.1 else aset m ow.1 sub) lk.nodes
    destructs := l.destructSet.foldl (fun m h => removeAt m h state) lk.destructs
    accounts := l.accountData.foldl (fun m h => removeAt m h state) lk.accounts
    storages := l.storageData.foldl (fun m ow =>
      let sub := ow.2.foldl (fun sub h => removeAt sub h state) ((aget m ow.1).getD [])
      if sub = [] then adel m ow.1 else aset m ow.1 sub) lk.storages }

/-- `layerTree`: the disk base layer, the root-indexed layer map, the
descendant-closure map and the lookup index. -/
structure LayerTree where
  base : LayerRec
  layers : List (Hash × LayerRec)
  descendants : List (Hash × List Hash)
  lookup : Lookup
deriving DecidableEq

/-- `layerTree.get`: retrieve the layer for a (normalized) state root. -/
def LayerTree.get (t : LayerTree) (root : Hash) : Option LayerRec :=
  aget t.layers (trieRootHash root)

/-- The chain of roots from `r` toward the disk layer (self-inclusive),
resolved through the layer map with explicit fuel. -/
def chainFrom (t : LayerTree) : Nat → Hash → List Hash
  | 0, _ => []
  | fuel + 1, r =>
    match aget t.layers r with
    | none => []
    | some l =>
      match l.parent with
      | none => [r]
      | some p => r :: chainFrom t fuel p

/-- Errors surfaced by the layer tree. -/
inductive TreeErr
  | layerCycle
  | parentMissing
  | layerMissing
  | diskLayerImmutable
deriving DecidableEq

/-- The touched state keys handed to `add` (the key sets of a
`StateSetWithOrigin`). -/
structure StateKeys where
  destructSet : List Hash
  accountData : List Hash
  storageData : List (Hash × List Hash)
deriving DecidableEq

/-- Modelled from the spec (§4.1 `update`; pathdb difflayer.go is not in
src/): constructing the child diff layer over the parent rooted at
`parentRoot` with the given state id. -/
def newDiffLayer (root : Hash) (id block : Nat) (nodes : List (Hash × List NodePath))
    (states : StateKeys) (parentRoot : Hash) : LayerRec :=
  { root := root, id := id, block := block, parent := some parentRoot,
    nodes := nodes, destructSet := states.destructSet,
    accountData := states.accountData, storageData := states.storageData }

/-- `layerTree.add` (src/triedb/pathdb/layertree.go): normalizes both roots,
rejects a self-loop, rejects an unknown parent; otherwise builds the child
layer with state id `parent.id + 1`, stores it, records its root under
`descendants[a]` for every ancestor `a`, and registers its keys in the
lookup index. -/
def LayerTree.add (t : LayerTree) (root parentRoot : Hash) (block : Nat)
    (nodes : List (Hash × List NodePath)) (states : StateKeys) :
    Except TreeErr LayerTree :=
  let root := trieRootHash root
  let parentRoot := trieRootHash parentRoot
  if root = parentRoot then .error .layerCycle
  else
    match aget t.layers parentRoot with
    | none => .error .parentMissing
    | some parent =>
      let l := newDiffLayer root (parent.id + 1) block nodes states parentRoot
      let anc := chainFrom t t.layers.length parentRoot
      .ok { t with
            layers := aset t.layers root l
            descendants := anc.foldl (fun d h => aappend d h root) t.descendants
            lookup := t.lookup.addLayer l }

/-- `newLayerTree` over a fresh disk layer (the startup path): the layer map
holds just the disk layer, no descendants, an empty lookup.  The disk root
is normalized (an empty state is stored under the empty-trie root). -/
def initTree (root0 : Hash) (id0 : Nat) : LayerTree :=
  let base : LayerRec :=
    { root := trieRootHash root0, id := id0, block := 0, parent := none,
      nodes := [], destructSet := [], accountData := [], storageData := [] }
  { base := base, layers := [(base.root, base)], descendants := [],
    lookup := Lookup.emptyIdx }

/-- One `add` request. -/
structure AddOp where
  root : Hash
  parentRoot : Hash
  block : Nat
  nodes : List (Hash × List NodePath)
  states : StateKeys
deriving DecidableEq

/-- Apply a sequence of `add` operations; a failing add leaves the tree
unchanged, and an add whose (normalized) root is already live is skipped
(state roots are globally unique over a chain history, per the data
model). -/
def build (t : LayerTree) : List AddOp → LayerTree
  | [] => t
  | op :: rest =>
    let t' :=
      if (aget t.layers (trieRootHash op.root)).isSome then t
      else
        match t.add op.root op.parentRoot op.block op.nodes op.states with
        | .ok u => u
        | .error _ => t
    build t' rest

/-- `layerTree.isDescendant`: whether `root` is recorded as a descendant of
`ancestor`. -/
def LayerTree.isDescendant (t : LayerTree) (root ancestor : Hash) : Bool :=
  match aget t.descendants ancestor with
  | none => false
  | some s => decide (root ∈ s)

/-- The scan inside `lookup.stateTip`'s `findTip`: walk the (already
reversed) list newest-to-oldest and return the first root equal to the head
or a recorded ancestor of it; the zero hash when none qualifies. -/
def findTipAux (t : LayerTree) (root : Hash) : List Hash → Hash
  | [] => 0
  | x :: rest =>
    if x = root ∨ t.isDescendant root x = true then x else findTipAux t root rest

/-- `findTip` inside `lookup.stateTip`: scan the list from its newest end. -/
def findTip (t : LayerTree) (list : List Hash) (root : Hash) : Hash :=
  findTipAux t root list.reverse

/-- `lookup.stateTip` (src/triedb/pathdb/lookup.go): merge the tips of the
destruct list and the state list; with both present and distinct, the one
that descends from the other (the more recent on the path) wins. -/
def stateTip (t : LayerTree) (destructList stateList : List Hash) (head : Hash) : Hash :=
  let tipA := findTip t destructList head
  let tipB := findTip t stateList head
  if tipA = 0 ∧ tipB = 0 then 0
  else if tipA = 0 then tipB
  else if tipB = 0 then tipA
  else if tipA = tipB then tipA
  else if t.isDescendant tipA tipB = true then tipA
  else tipB

/-- `lookup.accountTip`: the state tip over the account's destruct and
account lists. -/
def LayerTree.accountTip (t : LayerTree) (accountHash state : Hash) : Hash :=
  stateTip t ((aget t.lookup.destructs accountHash).getD [])
    ((aget t.lookup.accounts accountHash).getD []) state

/-- `layerTree.lookupAccount`: the layer to consult first for an account
read; the disk layer when the fast index reports no tip. -/
def LayerTree.lookupAccount (t : LayerTree) (accountHash state : Hash) : Option LayerRec :=
  let tip := t.accountTip accountHash state
  if tip = 0 then some t.base else aget t.layers tip

/-- Whether the layer rooted at `c` modified account `k` (through its
destruct set or its account list). -/
def accountModifiedAt (t : LayerTree) (k c : Hash) : Bool :=
  match aget t.layers c with
  | some l => decide (k ∈ l.destructSet) || decide (k ∈ l.accountData)
  | none => false

/-- The brute-force reference walk for account lookups, following the spec's
words: on the parent chain of `head`, the topmost (nearest-to-head) layer
whose destruct set or account list touched `k` is the layer to consult, and
when no layer on the chain ever modified `k`, the disk layer is. -/
def walkAccount (t : LayerTree) (k head : Hash) : Option LayerRec :=
  match (chainFrom t t.layers.length head).find? (fun c => accountModifiedAt t k c) with
  | some c => aget t.layers c
  | none => some t.base

/-! ### Capping the diff chain (triedb/pathdb/layertree.go `cap`) -/

/-- The downward dive of `cap`: follow `n` diff-parent hops from the diff
layer `l`; `none` when a hop would land on the disk layer (the diff stack is
too shallow and `cap` makes no modification). -/
def capDescend (t : LayerTree) : LayerRec → Nat → Option LayerRec
  | l, 0 => some l
  | l, n + 1 =>
    match l.parent with
    | none => none
    | some p =>
      match aget t.layers p with
      | none => none
      | some pl => if pl.parent = none then none else capDescend t pl n

/-- Modelled from the spec (§4.2-4.3; pathdb difflayer.go `persist`/`flatten`
and the tree-facing effect of `diskLayer.commit` are not in src/):
flattening a diff layer together with all its diff ancestors into the disk
layer and committing yields a new disk layer carrying the diff layer's root
and state id; the flattened content moves into the disk layer's buffer, so
the tree-level record is a content-free disk record. -/
def persistL (l : LayerRec) : LayerRec :=
  { root := l.root, id := l.id, block := l.block, parent := none,
    nodes := [], destructSet := [], accountData := [], storageData := [] }

/-- The child map built inside `cap`: for every diff layer entry, its root is
recorded under its parent's root. -/
def buildChildren (layers : List (Hash × LayerRec)) : List (Hash × List Hash) :=
  layers.foldl (fun m rl =>
    match rl.2.parent with
    | some p => aappend m p rl.1
    | none => m) []

/-- The mutable state threaded through `cap`'s recursive `remove`. -/
structure PruneSt where
  layers : List (Hash × LayerRec)
  descendants : List (Hash × List Hash)
  lookup : Lookup
deriving DecidableEq

/-- `removeLookup` inside `cap`: drop the lookup entries of the layer stored
at `root` when it is a diff layer. -/
def removeLookupOf (st : PruneSt) (root : Hash) : PruneSt :=
  match aget st.layers root with
  | some l => if l.parent = none then st else { st with lookup := st.lookup.removeLayer l }
  | none => st

/-- `remove` inside `cap`: drop the layer stored at `root` (and its lookup
entries and descendant set) and recurse into its children.  The fuel bounds
the recursion depth; with fuel at least the number of layers it never runs
out on a well-formed tree. -/
def removeRec (children : List (Hash × List Hash)) : Nat → PruneSt → Hash → PruneSt
  | 0, st, _ => st
  | fuel + 1, st, root =>
    let st1 := removeLookupOf st root
    let st2 : PruneSt :=
      { st1 with layers := adel st1.layers root
                 descendants := adel st1.descendants root }
    ((aget children root).getD []).foldl (fun s c => removeRec children fuel s c) st2

/-- The modification branch of `cap` once the stale parent `pl` (a diff
layer) is to be flattened: persist `pl` into a new disk layer (the relinking
of the surviving child keeps its parent root, which `pl`'s root equals, so
the pointer-level relink is identity here), store it under `pl`'s root,
prune every layer whose whole parent chain became stale starting from the
old base, drop the stale parent's lookup entries, and install the new
base. -/
def capFlattenInto (t : LayerTree) (pl : LayerRec) : LayerTree :=
  let newBase := persistL pl
  let layers1 := aset t.layers newBase.root newBase
  let children := buildChildren layers1
  let st1 := removeRec children layers1.length ⟨layers1, t.descendants, t.lookup⟩ t.base.root
  { base := newBase, layers := st1.layers, descendants := st1.descendants,
    lookup := st1.lookup.removeLayer pl }

/-- `layerTree.cap` (src/triedb/pathdb/layertree.go): normalizes the root,
errors on a missing or disk layer; with `layersN = 0` flattens the whole
chain at `root` into a fresh one-layer tree; otherwise dives `layersN - 1`
diff hops and, unless the dive or the next parent reaches the disk layer
(in which case nothing is modified), flattens the stale parent into a new
base and prunes the stale part of the tree. -/
def LayerTree.cap (t : LayerTree) (root : Hash) (layersN : Nat) : Except TreeErr LayerTree :=
  let root := trieRootHash root
  match aget t.layers root with
  | none => .error .layerMissing
  | some l =>
    match l.parent with
    | none => .error .diskLayerImmutable
    | some _ =>
      if layersN = 0 then
        let base := persistL l
        .ok { base := base, layers := [(base.root, base)], descendants := [],
              lookup := Lookup.emptyIdx }
      else
        match capDescend t l (layersN - 1) with
        | none => .ok t
        | some diff =>
          match diff.parent with
          | none => .ok t
          | some pRoot =>
            match aget t.layers pRoot with
            | none => .ok t
            | some pl =>
              if pl.parent = none then .ok t
              else .ok (capFlattenInto t pl)

/-- The number of diff layers on the path from `r` down to (and excluding)
the disk layer, `r` included when it is a diff layer; `none` when the walk
runs out of fuel or the map is broken. -/
def diffsOnPath (t : LayerTree) : Nat → Hash → Option Nat
  | 0, _ => none
  | fuel + 1, r =>
    match aget t.layers r with
    | none => none
    | some l =>
      match l.parent with
      | none => some 0
      | some p => (diffsOnPath t fuel p).map (· + 1)

/-! ### Zero-root normalization (C10) -/

theorem trieRootHash_zero : trieRootHash 0 = emptyRootHash := rfl

theorem trieRootHash_emptyRoot : trieRootHash emptyRootHash = emptyRootHash := by
  unfold trieRootHash
  rw [if_neg]
  decide

/-- C10: all public layer-tree entry points normalize the all-zero root to
the canonical empty-trie root: `get`, `add` (in both root arguments) and
`cap` behave identically on the zero hash and on the empty-trie root. -/
theorem zero_root_normalized :
    (∀ t : LayerTree, t.get 0 = t.get emptyRootHash) ∧
    (∀ (t : LayerTree) (p : Hash) (b : Nat) (ns : List (Hash × List NodePath))
      (st : StateKeys), t.add 0 p b ns st = t.add emptyRootHash p b ns st) ∧
    (∀ (t : LayerTree) (r : Hash) (b : Nat) (ns : List (Hash × List NodePath))
      (st : StateKeys), t.add r 0 b ns st = t.add r emptyRootHash b ns st) ∧
    (∀ (t : LayerTree) (n : Nat), t.cap 0 n = t.cap emptyRootHash n) := by
  refine ⟨?_, ?_, ?_, ?_⟩
  · intro t
    simp only [LayerTree.get, trieRootHash_zero, trieRootHash_emptyRoot]
  · intro t p b ns st
    simp only [LayerTree.add, trieRootHash_zero, trieRootHash_emptyRoot]
  · intro t r b ns st
    simp only [LayerTree.add, trieRootHash_zero, trieRootHash_emptyRoot]
  · intro t n
    simp only [LayerTree.cap, trieRootHash_zero, trieRootHash_emptyRoot]

/-! ### Append-fold characterizations -/

theorem mem_getD_aappend_self {κ : Type} [DecidableEq κ]
    (m : List (κ × List Hash)) (k : κ) (x : Hash) :
    x ∈ (aget (aappend m k x) k).getD [] := by
  unfold aappend
  rw [aget_aset_self]
  simp

theorem mem_getD_aappend_mono {κ : Type} [DecidableEq κ]
    (m : List (κ × List Hash)) (k k' : κ) (x r : Hash)
    (h : r ∈ (aget m k).getD []) : r ∈ (aget (aappend m k' x) k).getD [] := by
  by_cases hk : k' = k
  · subst hk
    unfold aappend
    rw [aget_aset_self]
    simp only [Option.getD_some, List.mem_append]
    exact Or.inl h
  · unfold aappend
    rw [aget_aset_ne _ _ _ _ hk]
    exact h

theorem mem_getD_foldl_aappend_mono {κ : Type} [DecidableEq κ] (x r : Hash) :
    ∀ (ks : List κ) (m : List (κ × List Hash)) (k : κ),
      r ∈ (aget m k).getD [] →
      r ∈ (aget (ks.foldl (fun d h => aappend d h x) m) k).getD [] := by
  intro ks
  induction ks with
  | nil => intro m k h; exact h
  | cons a rest ih =>
    intro m k h
    exact ih (aappend m a x) k (mem_getD_aappend_mono m k a x r h)

theorem mem_getD_foldl_aappend_self {κ : Type} [DecidableEq κ] (x : Hash) :
    ∀ (ks : List κ) (m : List (κ × List Hash)) (k : κ), k ∈ ks →
      x ∈ (aget (ks.foldl (fun d h => aappend d h x) m) k).getD [] := by
  intro ks
  induction ks with
  | nil => intro m k h; exact absurd h (List.not_mem_nil k)
  | cons a rest ih =>
    intro m k h
    rcases List.mem_cons.mp h with h | h
    · subst h
      exact mem_getD_foldl_aappend_mono x x rest (aappend m k x) k
        (mem_getD_aappend_self m k x)
    · exact ih (aappend m a x) k h

/-- The nested append step used for the storage and node indices of
`lookup.addLayer`. -/
def nestedStep {κ κ' : Type} [DecidableEq κ] [DecidableEq κ'] (x : Hash)
    (m : List (κ × List (κ' × List Hash))) (ow : κ × List κ') :
    List (κ × List (κ' × List Hash)) :=
  aset m ow.1 (ow.2.foldl (fun sub h => aappend sub h x) ((aget m ow.1).getD []))

theorem mem_nestedStep_mono {κ κ' : Type} [DecidableEq κ] [DecidableEq κ'] (x r : Hash)
    (m : List (κ × List (κ' × List Hash))) (ow : κ × List κ') (a : κ) (s : κ')
    (h : r ∈ (aget ((aget m a).getD []) s).getD []) :
    r ∈ (aget ((aget (nestedStep x m ow) a).getD []) s).getD [] := by
  by_cases hk : ow.1 = a
  · subst hk
    unfold nestedStep
    rw [aget_aset_self]
    exact mem_getD_foldl_aappend_mono x r ow.2 _ s h
  · unfold nestedStep
    rw [aget_aset_ne _ _ _ _ hk]
    exact h

theorem mem_nestedFold_mono {κ κ' : Type} [DecidableEq κ] [DecidableEq κ'] (x r : Hash) :
    ∀ (entries : List (κ × List κ')) (m : List (κ × List (κ' × List Hash))) (a : κ) (s : κ'),
      r ∈ (aget ((aget m a).getD []) s).getD [] →
      r ∈ (aget ((aget (entries.foldl (nestedStep x) m) a).getD []) s).getD [] := by
  intro entries
  induction entries with
  | nil => intro m a s h; exact h
  | cons e rest ih =>
    intro m a s h
    exact ih (nestedStep x m e) a s (mem_nestedStep_mono x r m e a s h)

theorem mem_nestedFold_self {κ κ' : Type} [DecidableEq κ] [DecidableEq κ'] (x : Hash) :
    ∀ (entries : List (κ × List κ')) (m : List (κ × List (κ' × List Hash)))
      (a : κ) (slots : List κ') (s : κ'),
      (a, slots) ∈ entries → s ∈ slots →
      x ∈ (aget ((aget (entries.foldl (nestedStep x) m) a).getD []) s).getD [] := by
  intro entries
  induction entries with
  | nil => intro m a slots s h _; exact absurd h (List.not_mem_nil _)
  | cons e rest ih =>
    intro m a slots s h hs
    rcases List.mem_cons.mp h with h | h
    · subst h
      refine mem_nestedFold_mono x x rest (nestedStep x m (a, slots)) a s ?_
      unfold nestedStep
      rw [aget_aset_self]
      exact mem_getD_foldl_aappend_self x slots _ s hs
    · exact ih (nestedStep x m e) a slots s h hs

theorem aset_fresh_append {κ α : Type} [DecidableEq κ] :
    ∀ (m : List (κ × α)) (k : κ) (v : α), aget m k = none → aset m k v = m ++ [(k, v)] := by
  intro m
  induction m with
  | nil => intro k v _; rfl
  | cons hd tl ih =>
    intro k v h
    unfold aget at h
    by_cases hk : hd.1 = k
    · simp [hk] at h
    · simp only [aset, if_neg hk, List.cons_append]
      rw [show ((hd.1, hd.2) : κ × α) = hd from rfl] at *
      rw [ih k v (by simpa [hk] using h)]

/-! ### C7: the effects of `layerTree.add` -/

/-- C7: `add` fails with the layer-cycle error when the new root equals the
parent root, fails with the parent-missing error when the (normalized)
parent names no live layer, and otherwise inserts exactly one new diff layer
(with state id `parent.id + 1`), records its root under `descendants[a]` for
every ancestor `a` of the new layer, and registers every key it touches in
the lookup index. -/
theorem add_effects (t : LayerTree) (root parentRoot : Hash) (block : Nat)
    (nodes : List (Hash × List NodePath)) (states : StateKeys) :
    (root = parentRoot → t.add root parentRoot block nodes states = .error .layerCycle) ∧
    (t.get parentRoot = none → trieRootHash root ≠ trieRootHash parentRoot →
      t.add root parentRoot block nodes states = .error .parentMissing) ∧
    (∀ parent, aget t.layers (trieRootHash parentRoot) = some parent →
      trieRootHash root ≠ trieRootHash parentRoot →
      aget t.layers (trieRootHash root) = none →
      ∃ t' l, t.add root parentRoot block nodes states = .ok t' ∧
        l.root = trieRootHash root ∧ l.parent = some (trieRootHash parentRoot) ∧
        l.id = parent.id + 1 ∧
        aget t'.layers (trieRootHash root) = some l ∧
        t'.layers.length = t.layers.length + 1 ∧
        (∀ a, a ∈ chainFrom t t.layers.length (trieRootHash parentRoot) →
          trieRootHash root ∈ (aget t'.descendants a).getD []) ∧
        (∀ k, k ∈ states.destructSet →
          trieRootHash root ∈ (aget t'.lookup.destructs k).getD []) ∧
        (∀ k, k ∈ states.accountData →
          trieRootHash root ∈ (aget t'.lookup.accounts k).getD []) ∧
        (∀ a slots, (a, slots) ∈ states.storageData → ∀ s, s ∈ slots →
          trieRootHash root ∈ (aget ((aget t'.lookup.storages a).getD []) s).getD []) ∧
        (∀ o paths, (o, paths) ∈ nodes → ∀ p, p ∈ paths →
          trieRootHash root ∈ (aget ((aget t'.lookup.nodes o).getD []) p).getD [])) := by
  refine ⟨?_, ?_, ?_⟩
  · intro h
    subst h
    simp [LayerTree.add]
  · intro hg hne
    unfold LayerTree.get at hg
    simp [LayerTree.add, hne, hg]
  · intro parent hp hne hfresh
    have hok : t.add root parentRoot block nodes states = .ok
        { t with
          layers := aset t.layers (trieRootHash root)
            (newDiffLayer (trieRootHash root) (parent.id + 1) block nodes states
              (trieRootHash parentRoot))
          descendants := (chainFrom t t.layers.length (trieRootHash parentRoot)).foldl
            (fun d h => aappend d h (trieRootHash root)) t.descendants
          lookup := t.lookup.addLayer
            (newDiffLayer (trieRootHash root) (parent.id + 1) block nodes states
              (trieRootHash parentRoot)) } := by
      simp [LayerTree.add, hne, hp]
    refine ⟨_, newDiffLayer (trieRootHash root) (parent.id + 1) block nodes states
        (trieRootHash parentRoot),
      hok, rfl, rfl, rfl, ?_, ?_, ?_, ?_, ?_, ?_, ?_⟩
    · exact aget_aset_self t.layers (trieRootHash root) _
    · show (aset t.layers (trieRootHash root) _).length = t.layers.length + 1
      rw [aset_fresh_append t.layers _ _ hfresh]
      simp
    · intro a ha
      show trieRootHash root ∈
        (aget ((chainFrom t t.layers.length (trieRootHash parentRoot)).foldl
          (fun d h => aappend d h (trieRootHash root)) t.descendants) a).getD []
      exact mem_getD_foldl_aappend_self _ _ t.descendants a ha
    · intro k hk
      exact mem_getD_foldl_aappend_self _ states.destructSet _ k hk
    · intro k hk
      exact mem_getD_foldl_aappend_self _ states.accountData _ k hk
    · intro a slots hmem s hs
      exact mem_nestedFold_self _ states.storageData _ a slots s hmem hs
    · intro o paths hmem p hp2
      exact mem_nestedFold_self _ nodes _ o paths p hmem hp2

/-- A concrete four-layer tree for witnesses: disk layer 1 with diff layers
2 (writes account 10), 3 (destructs 10, writes 10 and 11) and 4 (empty),
mirroring the repository's account-lookup test. -/
def opsW : List AddOp :=
  [ { root := 2, parentRoot := 1, block := 1, nodes := []
      states := { destructSet := [], accountData := [10], storageData := [] } },
    { root := 3, parentRoot := 2, block := 2, nodes := []
      states := { destructSet := [10], accountData := [10, 11], storageData := [] } },
    { root := 4, parentRoot := 3, block := 3, nodes := []
      states := { destructSet := [], accountData := [], storageData := [] } } ]

/-- The concrete tree built from `opsW` over the disk layer rooted at 1. -/
def treeW : LayerTree := build (initTree 1 0) opsW

/-- Witness for C7: adding root 5 (touching account 12 and storage slot
(13, 6) and node (0, [1])) on parent 4 of the concrete tree `treeW`
succeeds, stores the layer at id 4, and registers root 5 in the
descendants of 4 and in the lookup lists of the touched keys. -/
theorem add_effects_witness :
    ∃ t' l, treeW.add 5 4 9 [(0, [[1]])]
        { destructSet := [], accountData := [12], storageData := [(13, [6])] } = .ok t' ∧
      l.root = trieRootHash 5 ∧ l.parent = some (trieRootHash 4) ∧
      l.id = 3 + 1 ∧
      aget t'.layers (trieRootHash 5) = some l ∧
      t'.layers.length = treeW.layers.length + 1 ∧
      (∀ a, a ∈ chainFrom treeW treeW.layers.length (trieRootHash 4) →
        trieRootHash 5 ∈ (aget t'.descendants a).getD []) ∧
      (∀ k, k ∈ ([] : List Hash) →
        trieRootHash 5 ∈ (aget t'.lookup.destructs k).getD []) ∧
      (∀ k, k ∈ [12] →
        trieRootHash 5 ∈ (aget t'.lookup.accounts k).getD []) ∧
      (∀ a slots, (a, slots) ∈ [((13 : Hash), [(6 : Hash)])] → ∀ s, s ∈ slots →
        trieRootHash 5 ∈ (aget ((aget t'.lookup.storages a).getD []) s).getD []) ∧
      (∀ o paths, (o, paths) ∈ [((0 : Hash), [[1]])] → ∀ p, p ∈ paths →
        trieRootHash 5 ∈ (aget ((aget t'.lookup.nodes o).getD []) p).getD []) :=
  (add_effects treeW 5 4 9 [(0, [[1]])]
      { destructSet := [], accountData := [12], storageData := [(13, [6])] }).2.2
    { root := 4, id := 3, block := 3, parent := some 3, nodes := []
      destructSet := [], accountData := [], storageData := [] }
    (by decide) (by decide) (by decide)

/-! ### Well-formedness of layer trees and chain lemmas -/

/-- `a` is a proper ancestor of the live layer rooted at `r`: it appears on
the parent chain starting at `r`'s parent. -/
def properAnc (t : LayerTree) (a r : Hash) : Prop :=
  ∃ l p, aget t.layers r = some l ∧ l.parent = some p ∧
    a ∈ chainFrom t t.layers.length p

/-- The canonical ancestor chain of a root (fuel: the layer count). -/
def chainOf (t : LayerTree) (r : Hash) : List Hash :=
  chainFrom t t.layers.length r

/-- Chain-level well-formedness: unique normalized roots, live parents with
state ids stepping by one, and ids bounded by the base id plus the layer
count. -/
structure WFc (t : LayerTree) : Prop where
  keysNodup : (t.layers.map Prod.fst).Nodup
  rootsMatch : ∀ r l, aget t.layers r = some l → l.root = r ∧ r ≠ 0
  parentStep : ∀ r l p, aget t.layers r = some l → l.parent = some p →
    ∃ pl, aget t.layers p = some pl ∧ l.id = pl.id + 1
  idGe : ∀ r l, aget t.layers r = some l → t.base.id ≤ l.id
  idBound : ∀ r l, aget t.layers r = some l → l.id + 1 ≤ t.base.id + t.layers.length

/-- Full well-formedness: chain-level well-formedness plus the base layer
invariants, the descendant-closure specification and the account-relevant
lookup index invariants (membership plus ancestor-compatible ordering). -/
structure WF (t : LayerTree) : Prop where
  wfc : WFc t
  baseParent : t.base.parent = none
  baseGet : aget t.layers t.base.root = some t.base
  baseEmpty : t.base.destructSet = [] ∧ t.base.accountData = []
  diskUnique : ∀ r l, aget t.layers r = some l → l.parent = none → r = t.base.root
  descSpec : ∀ a r, r ∈ (aget t.descendants a).getD [] ↔ properAnc t a r
  destrMem : ∀ k r, r ∈ (aget t.lookup.destructs k).getD [] ↔
    ∃ l, aget t.layers r = some l ∧ k ∈ l.destructSet
  destrOrd : ∀ k, ((aget t.lookup.destructs k).getD []).Pairwise
    (fun x y => ¬ properAnc t y x)
  accMem : ∀ k r, r ∈ (aget t.lookup.accounts k).getD [] ↔
    ∃ l, aget t.layers r = some l ∧ k ∈ l.accountData
  accOrd : ∀ k, ((aget t.lookup.accounts k).getD []).Pairwise
    (fun x y => ¬ properAnc t y x)

theorem chainFrom_succ_eq {t : LayerTree} (w : WFc t) :
    ∀ (n : Nat) (r : Hash) (l : LayerRec), aget t.layers r = some l →
      l.id + 1 ≤ t.base.id + n → chainFrom t n r = chainFrom t (n + 1) r := by
  intro n
  induction n with
  | zero =>
    intro r l hg hle
    have := w.idGe r l hg
    omega
  | succ n ih =>
    intro r l hg hle
    cases hp : l.parent with
    | none => simp [chainFrom, hg, hp]
    | some p =>
      obtain ⟨pl, hpg, hpid⟩ := w.parentStep r l p hg hp
      have hrec := ih p pl hpg (by omega)
      simp [chainFrom, hg, hp, hrec]

theorem chainFrom_add_eq {t : LayerTree} (w : WFc t) (n : Nat) (r : Hash) (l : LayerRec)
    (hg : aget t.layers r = some l) (hle : l.id + 1 ≤ t.base.id + n) :
    ∀ k : Nat, chainFrom t n r = chainFrom t (n + k) r := by
  intro k
  induction k with
  | zero => rfl
  | succ k ih =>
    exact ih.trans (chainFrom_succ_eq w (n + k) r l hg (by omega))

theorem chainFrom_congr {t : LayerTree} (w : WFc t) {n1 n2 : Nat} {r : Hash}
    {l : LayerRec} (hg : aget t.layers r = some l)
    (h1 : l.id + 1 ≤ t.base.id + n1) (h2 : l.id + 1 ≤ t.base.id + n2) :
    chainFrom t n1 r = chainFrom t n2 r := by
  rcases Nat.le_total n1 n2 with h | h
  · have := chainFrom_add_eq w n1 r l hg h1 (n2 - n1)
    rwa [Nat.add_sub_cancel' h] at this
  · have := chainFrom_add_eq w n2 r l hg h2 (n1 - n2)
    rw [Nat.add_sub_cancel' h] at this
    exact this.symm

theorem layers_length_pos {t : LayerTree} {r : Hash} {l : LayerRec}
    (hg : aget t.layers r = some l) : 1 ≤ t.layers.length := by
  cases hm : t.layers with
  | nil => rw [hm] at hg; simp [aget] at hg
  | cons a b => simp

theorem chainOf_cons {t : LayerTree} (w : WFc t) {r p : Hash} {l : LayerRec}
    (hg : aget t.layers r = some l) (hp : l.parent = some p) :
    chainOf t r = r :: chainOf t p := by
  obtain ⟨pl, hpg, hpid⟩ := w.parentStep r l p hg hp
  have hlen := layers_length_pos hg
  obtain ⟨m, hm⟩ : ∃ m, t.layers.length = m + 1 :=
    ⟨t.layers.length - 1, by omega⟩
  have hb := w.idBound r l hg
  unfold chainOf
  rw [hm]
  show (match aget t.layers r with
    | none => []
    | some l =>
      match l.parent with
      | none => [r]
      | some p => r :: chainFrom t m p) = r :: chainFrom t (m + 1) p
  rw [hg]
  simp only [hp]
  rw [@chainFrom_congr t w m (m + 1) p pl hpg (by omega) (by omega)]

theorem chainOf_disk {t : LayerTree} {r : Hash} {l : LayerRec}
    (hg : aget t.layers r = some l) (hp : l.parent = none) :
    chainOf t r = [r] := by
  have hlen := layers_length_pos hg
  obtain ⟨m, hm⟩ : ∃ m, t.layers.length = m + 1 :=
    ⟨t.layers.length - 1, by omega⟩
  unfold chainOf
  rw [hm]
  show (match aget t.layers r with
    | none => []
    | some l =>
      match l.parent with
      | none => [r]
      | some p => r :: chainFrom t m p) = [r]
  rw [hg]
  simp [hp]

theorem chain_self {t : LayerTree} (w : WFc t) {r : Hash} {l : LayerRec}
    (hg : aget t.layers r = some l) : r ∈ chainOf t r := by
  cases hp : l.parent with
  | none => rw [chainOf_disk hg hp]; simp
  | some p => rw [chainOf_cons w hg hp]; simp

/-- The bounded master induction over parent chains: every chain element is
live with an id bounded by the head's (strictly when distinct from the
head), chain membership is totally ordered by the ancestor relation, and the
chain's ids strictly decrease along it. -/
theorem chain_master {t : LayerTree} (w : WFc t) :
    ∀ (n : Nat) (r : Hash) (l : LayerRec), aget t.layers r = some l →
      l.id ≤ t.base.id + n →
      (∀ x, x ∈ chainOf t r →
        ∃ lx, aget t.layers x = some lx ∧ lx.id ≤ l.id ∧ (x ≠ r → lx.id < l.id)) ∧
      (∀ x y, x ∈ chainOf t r → y ∈ chainOf t r →
        x ∈ chainOf t y ∨ y ∈ chainOf t x) ∧
      (chainOf t r).Pairwise
        (fun a b => ∀ la lb, aget t.layers a = some la → aget t.layers b = some lb →
          lb.id < la.id) := by
  intro n
  induction n with
  | zero =>
    intro r l hg hle
    cases hp : l.parent with
    | none =>
      rw [chainOf_disk hg hp]
      refine ⟨?_, ?_, ?_⟩
      · intro x hx
        rw [List.mem_singleton] at hx
        subst hx
        exact ⟨l, hg, le_rfl, fun h => absurd rfl h⟩
      · intro x y hx hy
        rw [List.mem_singleton] at hx hy
        subst hx; subst hy
        exact Or.inl (by rw [chainOf_disk hg hp]; simp)
      · simp
    | some p =>
      obtain ⟨pl, hpg, hpid⟩ := w.parentStep r l p hg hp
      have := w.idGe p pl hpg
      omega
  | succ n ih =>
    intro r l hg hle
    cases hp : l.parent with
    | none =>
      rw [chainOf_disk hg hp]
      refine ⟨?_, ?_, ?_⟩
      · intro x hx
        rw [List.mem_singleton] at hx
        subst hx
        exact ⟨l, hg, le_rfl, fun h => absurd rfl h⟩
      · intro x y hx hy
        rw [List.mem_singleton] at hx hy
        subst hx; subst hy
        exact Or.inl (by rw [chainOf_disk hg hp]; simp)
      · simp
    | some p =>
      obtain ⟨pl, hpg, hpid⟩ := w.parentStep r l p hg hp
      obtain ⟨ihA, ihB, ihC⟩ := ih p pl hpg (by omega)
      have hcons := chainOf_cons w hg hp
      refine ⟨?_, ?_, ?_⟩
      · intro x hx
        rw [hcons, List.mem_cons] at hx
        rcases hx with hx | hx
        · subst hx
          exact ⟨l, hg, le_rfl, fun h => absurd rfl h⟩
        · obtain ⟨lx, hlx, hle2, _⟩ := ihA x hx
          exact ⟨lx, hlx, by omega, fun _ => by omega⟩
      · intro x y hx hy
        rw [hcons, List.mem_cons] at hx hy
        rcases hx with hx | hx
        · subst hx
          right
          rw [hcons, List.mem_cons]
          rcases hy with hy | hy
          · exact Or.inl hy
          · exact Or.inr hy
        · rcases hy with hy | hy
          · subst hy
            left
            rw [hcons, List.mem_cons]
            exact Or.inr hx
          · exact ihB x y hx hy
      · rw [hcons]
        rw [List.pairwise_cons]
        constructor
        · intro b hb la lb hla hlb
          rw [hg] at hla
          obtain ⟨lb2, hlb2, hle2, _⟩ := ihA b hb
          rw [hlb2] at hlb
          cases hla
          cases hlb
          omega
        · exact ihC

theorem chain_live {t : LayerTree} (w : WFc t) {r : Hash} {l : LayerRec}
    (hg : aget t.layers r = some l) {x : Hash} (hx : x ∈ chainOf t r) :
    ∃ lx, aget t.layers x = some lx := by
  obtain ⟨lx, hlx, _, _⟩ := (chain_master w l.id r l hg (by omega)).1 x hx
  exact ⟨lx, hlx⟩

theorem chain_total {t : LayerTree} (w : WFc t) {r : Hash} {l : LayerRec}
    (hg : aget t.layers r = some l) {x y : Hash}
    (hx : x ∈ chainOf t r) (hy : y ∈ chainOf t r) :
    x ∈ chainOf t y ∨ y ∈ chainOf t x :=
  (chain_master w l.id r l hg (by omega)).2.1 x y hx hy

theorem chain_id_le {t : LayerTree} (w : WFc t) {r : Hash} {l : LayerRec}
    (hg : aget t.layers r = some l) {x : Hash} (hx : x ∈ chainOf t r)
    {lx : LayerRec} (hlx : aget t.layers x = some lx) :
    lx.id ≤ l.id ∧ (x ≠ r → lx.id < l.id) := by
  obtain ⟨lx2, hlx2, hle, hlt⟩ := (chain_master w l.id r l hg (by omega)).1 x hx
  rw [hlx2] at hlx
  cases hlx
  exact ⟨hle, hlt⟩

theorem chain_pairwise_id {t : LayerTree} (w : WFc t) {r : Hash} {l : LayerRec}
    (hg : aget t.layers r = some l) :
    (chainOf t r).Pairwise
      (fun a b => ∀ la lb, aget t.layers a = some la → aget t.layers b = some lb →
        lb.id < la.id) :=
  (chain_master w l.id r l hg (by omega)).2.2

theorem properAnc_iff_chain {t : LayerTree} (w : WFc t) {r : Hash} {l : LayerRec}
    (hg : aget t.layers r = some l) (a : Hash) :
    (a = r ∨ properAnc t a r) ↔ a ∈ chainOf t r := by
  cases hp : l.parent with
  | none =>
    rw [chainOf_disk hg hp, List.mem_singleton]
    constructor
    · rintro (h | h)
      · exact h
      · obtain ⟨l2, p2, hg2, hp2, _⟩ := h
        rw [hg] at hg2
        cases hg2
        rw [hp] at hp2
        cases hp2
    · intro h
      exact Or.inl h
  | some p =>
    rw [chainOf_cons w hg hp, List.mem_cons]
    constructor
    · rintro (h | h)
      · exact Or.inl h
      · obtain ⟨l2, p2, hg2, hp2, hmem⟩ := h
        rw [hg] at hg2
        cases hg2
        rw [hp] at hp2
        cases hp2
        exact Or.inr hmem
    · rintro (h | h)
      · exact Or.inl h
      · exact Or.inr ⟨l, p, hg, hp, h⟩

theorem properAnc_id_lt {t : LayerTree} (w : WFc t) {a r : Hash}
    (h : properAnc t a r) {la lr : LayerRec}
    (hla : aget t.layers a = some la) (hlr : aget t.layers r = some lr) :
    la.id < lr.id := by
  obtain ⟨l2, p, hg2, hp, hmem⟩ := h
  rw [hlr] at hg2
  cases hg2
  obtain ⟨pl, hpg, hpid⟩ := w.parentStep r lr p hlr hp
  have := (chain_id_le w hpg hmem hla).1
  omega

theorem properAnc_of_chain_ne {t : LayerTree} (w : WFc t) {y : Hash} {ly : LayerRec}
    (hgy : aget t.layers y = some ly) {x : Hash} (hx : x ∈ chainOf t y) (hne : x ≠ y) :
    properAnc t x y := by
  have := (properAnc_iff_chain w hgy x).mpr hx
  rcases this with h | h
  · exact absurd h hne
  · exact h

theorem chainFrom_mono {t t2 : LayerTree} (w : WFc t)
    (hsub : ∀ y ly, aget t.layers y = some ly → aget t2.layers y = some ly) :
    ∀ (f : Nat) (x : Hash) (lx : LayerRec), aget t.layers x = some lx →
      chainFrom t2 f x = chainFrom t f x := by
  intro f
  induction f with
  | zero => intro x lx _; rfl
  | succ f ih =>
    intro x lx hx
    have hx2 := hsub x lx hx
    cases hp : lx.parent with
    | none => simp [chainFrom, hx, hx2, hp]
    | some p =>
      obtain ⟨pl, hpg, _⟩ := w.parentStep x lx p hx hp
      simp [chainFrom, hx, hx2, hp, ih p pl hpg]

theorem aget_singleton {κ α : Type} [DecidableEq κ] (k r : κ) (v : α) :
    aget [(k, v)] r = if k = r then some v else none := by
  simp [aget]

theorem WF_init (root0 : Hash) (id0 : Nat) : WF (initTree root0 id0) := by
  have hget : ∀ r l, aget (initTree root0 id0).layers r = some l →
      r = trieRootHash root0 ∧
      l = { root := trieRootHash root0, id := id0, block := 0, parent := none,
            nodes := [], destructSet := [], accountData := [], storageData := [] } := by
    intro r l h
    rw [show (initTree root0 id0).layers
      = [(trieRootHash root0,
          { root := trieRootHash root0, id := id0, block := 0, parent := none,
            nodes := [], destructSet := [], accountData := [],
            storageData := [] })] from rfl, aget_singleton] at h
    by_cases he : trieRootHash root0 = r
    · rw [if_pos he] at h
      cases h
      exact ⟨he.symm, rfl⟩
    · rw [if_neg he] at h
      cases h
  refine ⟨⟨?_, ?_, ?_, ?_, ?_⟩, rfl, ?_, ⟨rfl, rfl⟩, ?_, ?_, ?_, ?_, ?_, ?_⟩
  · simp [initTree]
  · intro r l h
    obtain ⟨hr, hl⟩ := hget r l h
    subst hr
    subst hl
    exact ⟨rfl, trieRootHash_ne_zero root0⟩
  · intro r l p h hp
    obtain ⟨_, hl⟩ := hget r l h
    subst hl
    cases hp
  · intro r l h
    obtain ⟨_, hl⟩ := hget r l h
    subst hl
    exact le_rfl
  · intro r l h
    obtain ⟨_, hl⟩ := hget r l h
    subst hl
    simp [initTree]
  · rw [show (initTree root0 id0).base.root = trieRootHash root0 from rfl]
    rw [show (initTree root0 id0).layers
      = [(trieRootHash root0, (initTree root0 id0).base)] from rfl, aget_singleton]
    simp
  · intro r l h hp
    obtain ⟨hr, _⟩ := hget r l h
    exact hr
  · intro a r
    constructor
    · intro h
      rw [show (initTree root0 id0).descendants = [] from rfl] at h
      simp [aget] at h
    · rintro ⟨l, p, hg, hp, _⟩
      obtain ⟨_, hl⟩ := hget r l hg
      subst hl
      cases hp
  · intro k r
    constructor
    · intro h
      rw [show (initTree root0 id0).lookup.destructs = [] from rfl] at h
      simp [aget] at h
    · rintro ⟨l, hg, hk⟩
      obtain ⟨_, hl⟩ := hget r l hg
      subst hl
      simp at hk
  · intro k
    rw [show (initTree root0 id0).lookup.destructs = [] from rfl]
    simp [aget]
  · intro k r
    constructor
    · intro h
      rw [show (initTree root0 id0).lookup.accounts = [] from rfl] at h
      simp [aget] at h
    · rintro ⟨l, hg, hk⟩
      obtain ⟨_, hl⟩ := hget r l hg
      subst hl
      simp at hk
  · intro k
    rw [show (initTree root0 id0).lookup.accounts = [] from rfl]
    simp [aget]


/-- The tree produced by a successful `add` over parent record `parent`,
with normalized roots `R` (new) and `P` (parent). -/
def addResult (t : LayerTree) (parent : LayerRec) (R P : Hash) (block : Nat)
    (nodes : List (Hash × List NodePath)) (states : StateKeys) : LayerTree :=
  { t with
    layers := aset t.layers R (newDiffLayer R (parent.id + 1) block nodes states P)
    descendants := (chainFrom t t.layers.length P).foldl
      (fun d h => aappend d h R) t.descendants
    lookup := t.lookup.addLayer (newDiffLayer R (parent.id + 1) block nodes states P) }

theorem add_eq_addResult {t : LayerTree} {root parentRoot : Hash} {parent : LayerRec}
    (hcyc : trieRootHash root ≠ trieRootHash parentRoot)
    (hpar : aget t.layers (trieRootHash parentRoot) = some parent)
    (block : Nat) (nodes : List (Hash × List NodePath)) (states : StateKeys) :
    t.add root parentRoot block nodes states
      = .ok (addResult t parent (trieRootHash root) (trieRootHash parentRoot)
          block nodes states) := by
  simp [LayerTree.add, hcyc, hpar, addResult]

theorem aget_aappend_self {κ : Type} [DecidableEq κ]
    (m : List (κ × List Hash)) (k : κ) (x : Hash) :
    aget (aappend m k x) k = some (((aget m k).getD []) ++ [x]) := by
  unfold aappend
  exact aget_aset_self m k _

theorem aget_aappend_ne {κ : Type} [DecidableEq κ]
    (m : List (κ × List Hash)) (k k' : κ) (x : Hash) (h : k ≠ k') :
    aget (aappend m k x) k' = aget m k' := by
  unfold aappend
  exact aget_aset_ne m k k' _ h

/-- Characterization of folding `aappend` of a fixed value `x` over a key list:
untouched keys are unchanged, touched keys gain a non-empty run of copies of `x`. -/
theorem foldl_aappend_char {κ : Type} [DecidableEq κ] (x : Hash) :
    ∀ (ks : List κ) (m : List (κ × List Hash)) (k : κ),
    (k ∉ ks → aget (ks.foldl (fun d h => aappend d h x) m) k = aget m k) ∧
    (k ∈ ks → ∃ n : Nat, aget (ks.foldl (fun d h => aappend d h x) m) k
      = some (((aget m k).getD []) ++ List.replicate (n + 1) x)) := by
  intro ks
  induction ks with
  | nil =>
    intro m k
    exact ⟨fun _ => rfl, fun h => absurd h (List.not_mem_nil k)⟩
  | cons a rest ih =>
    intro m k
    have hstep : (a :: rest).foldl (fun d h => aappend d h x) m
        = rest.foldl (fun d h => aappend d h x) (aappend m a x) := rfl
    constructor
    · intro hnot
      rw [List.mem_cons, not_or] at hnot
      rw [hstep, (ih (aappend m a x) k).1 hnot.2]
      exact aget_aappend_ne m a k x (fun he => hnot.1 he.symm)
    · intro hmem
      rw [hstep]
      by_cases hk : k ∈ rest
      · obtain ⟨n, hn⟩ := (ih (aappend m a x) k).2 hk
        by_cases ha : a = k
        · subst ha
          rw [aget_aappend_self m a x] at hn
          refine ⟨n + 1, ?_⟩
          rw [hn]
          simp only [Option.getD_some]
          rw [List.append_assoc]
          congr 1
        · rw [aget_aappend_ne m a k x ha] at hn
          exact ⟨n, hn⟩
      · have ha : a = k := by
          rcases List.mem_cons.mp hmem with h | h
          · exact h.symm
          · exact absurd h hk
        subst ha
        rw [(ih (aappend m a x) a).1 hk, aget_aappend_self m a x]
        exact ⟨0, rfl⟩

theorem WF_addResult {t : LayerTree} (hw : WF t) {R P : Hash} {parent : LayerRec}
    (hR0 : R ≠ 0) (hfresh : aget t.layers R = none)
    (hpar : aget t.layers P = some parent)
    (block : Nat) (nodes : List (Hash × List NodePath)) (states : StateKeys) :
    WF (addResult t parent R P block nodes states) := by
  have hnotR : ∀ y (ly : LayerRec), aget t.layers y = some ly → y ≠ R := by
    intro y ly h he
    rw [he, hfresh] at h
    cases h
  have hget' : ∀ x, aget (addResult t parent R P block nodes states).layers x
      = if x = R then some (newDiffLayer R (parent.id + 1) block nodes states P)
        else aget t.layers x := by
    intro x
    by_cases hx : x = R
    · subst hx
      rw [if_pos rfl]
      exact aget_aset_self t.layers x _
    · rw [if_neg hx]
      exact aget_aset_ne t.layers _ x _ (fun he => hx he.symm)
  have hsub : ∀ y (ly : LayerRec), aget t.layers y = some ly →
      aget (addResult t parent R P block nodes states).layers y = some ly := by
    intro y ly h
    rw [hget' y, if_neg (hnotR y ly h)]
    exact h
  have hRL : aget (addResult t parent R P block nodes states).layers R
      = some (newDiffLayer R (parent.id + 1) block nodes states P) := by
    rw [hget' R, if_pos rfl]
  have hlen2 : (addResult t parent R P block nodes states).layers.length
      = t.layers.length + 1 := by
    show (aset t.layers R _).length = t.layers.length + 1
    rw [aset_fresh_append t.layers _ _ hfresh]
    simp
  have hwfc2 : WFc (addResult t parent R P block nodes states) := by
    constructor
    · show ((aset t.layers R _).map Prod.fst).Nodup
      rw [aset_fresh_append t.layers _ _ hfresh]
      rw [List.map_append, List.nodup_append]
      refine ⟨hw.wfc.keysNodup, by simp, ?_⟩
      intro a ha
      simp only [List.map_cons, List.map_nil, List.mem_singleton]
      intro he
      subst he
      rw [aget_eq_none_iff] at hfresh
      exact hfresh ha
    · intro r l h
      rw [hget' r] at h
      by_cases hr : r = R
      · rw [if_pos hr] at h
        cases h
        subst hr
        exact ⟨rfl, hR0⟩
      · rw [if_neg hr] at h
        exact hw.wfc.rootsMatch r l h
    · intro r l p h hp
      rw [hget' r] at h
      by_cases hr : r = R
      · rw [if_pos hr] at h
        cases h
        cases hp
        exact ⟨parent, hsub _ parent hpar, rfl⟩
      · rw [if_neg hr] at h
        obtain ⟨pl, hpg, hpid⟩ := hw.wfc.parentStep r l p h hp
        exact ⟨pl, hsub _ pl hpg, hpid⟩
    · intro r l h
      rw [hget' r] at h
      by_cases hr : r = R
      · rw [if_pos hr] at h
        cases h
        have := hw.wfc.idGe _ parent hpar
        show t.base.id ≤ parent.id + 1
        omega
      · rw [if_neg hr] at h
        exact hw.wfc.idGe r l h
    · intro r l h
      rw [hget' r] at h
      rw [hlen2]
      by_cases hr : r = R
      · rw [if_pos hr] at h
        cases h
        have := hw.wfc.idBound _ parent hpar
        show parent.id + 1 + 1 ≤ t.base.id + (t.layers.length + 1)
        omega
      · rw [if_neg hr] at h
        have := hw.wfc.idBound r l h
        show l.id + 1 ≤ t.base.id + (t.layers.length + 1)
        omega
  have hstab : ∀ (f : Nat) (y : Hash) (ly : LayerRec), aget t.layers y = some ly →
      chainFrom (addResult t parent R P block nodes states) f y = chainFrom t f y :=
    chainFrom_mono hw.wfc hsub
  have hchainOf2 : ∀ (y : Hash) (ly : LayerRec), aget t.layers y = some ly →
      chainOf (addResult t parent R P block nodes states) y = chainOf t y := by
    intro y ly h
    unfold chainOf
    rw [hlen2, hstab _ y ly h]
    exact @chainFrom_congr t hw.wfc (t.layers.length + 1) t.layers.length y ly h
      (by have := hw.wfc.idBound y ly h; omega) (hw.wfc.idBound y ly h)
  have hchainR : chainOf (addResult t parent R P block nodes states) R
      = R :: chainOf t P := by
    rw [chainOf_cons hwfc2 hRL rfl]
    rw [hchainOf2 P parent hpar]
  have hpaOld : ∀ (x : Hash) (lx : LayerRec) (a : Hash), aget t.layers x = some lx →
      (properAnc (addResult t parent R P block nodes states) a x ↔ properAnc t a x) := by
    intro x lx a hx
    constructor
    · rintro ⟨l2, p2, hg2, hp2, hmem⟩
      rw [hsub x lx hx] at hg2
      cases hg2
      obtain ⟨pl, hpg, _⟩ := hw.wfc.parentStep x lx p2 hx hp2
      rw [hlen2, hstab _ p2 pl hpg] at hmem
      rw [@chainFrom_congr t hw.wfc (t.layers.length + 1) t.layers.length p2 pl hpg
        (by have := hw.wfc.idBound p2 pl hpg; omega) (hw.wfc.idBound p2 pl hpg)] at hmem
      exact ⟨lx, p2, hx, hp2, hmem⟩
    · rintro ⟨l2, p2, hg2, hp2, hmem⟩
      rw [hx] at hg2
      cases hg2
      obtain ⟨pl, hpg, _⟩ := hw.wfc.parentStep x lx p2 hx hp2
      refine ⟨lx, p2, hsub x lx hx, hp2, ?_⟩
      rw [hlen2, hstab _ p2 pl hpg]
      rw [@chainFrom_congr t hw.wfc (t.layers.length + 1) t.layers.length p2 pl hpg
        (by have := hw.wfc.idBound p2 pl hpg; omega) (hw.wfc.idBound p2 pl hpg)]
      exact hmem
  have hpaR : ∀ a, properAnc (addResult t parent R P block nodes states) a R
      ↔ a ∈ chainOf t P := by
    intro a
    constructor
    · rintro ⟨l2, p2, hg2, hp2, hmem⟩
      rw [hRL] at hg2
      cases hg2
      cases hp2
      rw [hlen2, hstab _ P parent hpar] at hmem
      rw [@chainFrom_congr t hw.wfc (t.layers.length + 1) t.layers.length P parent hpar
        (by have := hw.wfc.idBound P parent hpar; omega)
        (hw.wfc.idBound P parent hpar)] at hmem
      exact hmem
    · intro hmem
      refine ⟨newDiffLayer R (parent.id + 1) block nodes states P, P, hRL, rfl, ?_⟩
      rw [hlen2, hstab _ P parent hpar]
      rw [@chainFrom_congr t hw.wfc (t.layers.length + 1) t.layers.length P parent hpar
        (by have := hw.wfc.idBound P parent hpar; omega)
        (hw.wfc.idBound P parent hpar)]
      exact hmem
  have hnoancR : ∀ x, ¬ properAnc (addResult t parent R P block nodes states) R x := by
    intro x hpa
    obtain ⟨l2, p2, hg2, hp2, hmem⟩ := hpa
    rw [hget' x] at hg2
    by_cases hx : x = R
    · rw [if_pos hx] at hg2
      cases hg2
      cases hp2
      rw [hlen2, hstab _ P parent hpar] at hmem
      rw [@chainFrom_congr t hw.wfc (t.layers.length + 1) t.layers.length P parent hpar
        (by have := hw.wfc.idBound P parent hpar; omega)
        (hw.wfc.idBound P parent hpar)] at hmem
      obtain ⟨lR, hlR⟩ := chain_live hw.wfc hpar hmem
      rw [hfresh] at hlR
      cases hlR
    · rw [if_neg hx] at hg2
      have hpa2 : properAnc t R x :=
        (hpaOld x l2 R hg2).mp ⟨l2, p2, by rw [hget' x, if_neg hx]; exact hg2, hp2, hmem⟩
      obtain ⟨l3, p3, hg3, hp3, hmem3⟩ := hpa2
      obtain ⟨pl3, hpg3, _⟩ := hw.wfc.parentStep x l3 p3 hg3 hp3
      obtain ⟨lR, hlR⟩ := chain_live hw.wfc hpg3 hmem3
      rw [hfresh] at hlR
      cases hlR
  refine ⟨hwfc2, hw.baseParent, hsub _ t.base hw.baseGet, hw.baseEmpty, ?_, ?_, ?_, ?_, ?_, ?_⟩
  · -- diskUnique
    intro r l h hp
    rw [hget' r] at h
    by_cases hr : r = R
    · rw [if_pos hr] at h
      cases h
      cases hp
    · rw [if_neg hr] at h
      exact hw.diskUnique r l h hp
  · -- descSpec
    intro a r
    have hchar := foldl_aappend_char R (chainOf t P) t.descendants a
    show r ∈ (aget ((chainOf t P).foldl (fun d h => aappend d h R) t.descendants) a).getD []
      ↔ _
    by_cases ha : a ∈ chainOf t P
    · obtain ⟨n, hn⟩ := hchar.2 ha
      rw [hn]
      simp only [Option.getD_some, List.mem_append, List.mem_replicate]
      constructor
      · rintro (h | ⟨_, h⟩)
        · obtain ⟨lr, p2, hg, hp2, hm2⟩ := (hw.descSpec a r).mp h
          exact (hpaOld r lr a hg).mpr ⟨lr, p2, hg, hp2, hm2⟩
        · subst h
          exact (hpaR a).mpr ha
      · intro h
        by_cases hr : r = R
        · subst hr
          exact Or.inr ⟨by omega, rfl⟩
        · obtain ⟨l2, p2, hg2, hp2, hmem2⟩ := h
          rw [hget' r, if_neg hr] at hg2
          left
          exact (hw.descSpec a r).mpr
            ((hpaOld r l2 a hg2).mp ⟨l2, p2, by rw [hget' r, if_neg hr]; exact hg2, hp2, hmem2⟩)
    · rw [hchar.1 ha]
      constructor
      · intro h
        obtain ⟨lr, p2, hg, hp2, hm2⟩ := (hw.descSpec a r).mp h
        exact (hpaOld r lr a hg).mpr ⟨lr, p2, hg, hp2, hm2⟩
      · intro h
        by_cases hr : r = R
        · subst hr
          exact absurd ((hpaR a).mp h) ha
        · obtain ⟨l2, p2, hg2, hp2, hmem2⟩ := h
          rw [hget' r, if_neg hr] at hg2
          exact (hw.descSpec a r).mpr
            ((hpaOld r l2 a hg2).mp ⟨l2, p2, by rw [hget' r, if_neg hr]; exact hg2, hp2, hmem2⟩)
  · -- destrMem
    intro k r
    have hchar := foldl_aappend_char R states.destructSet t.lookup.destructs k
    show r ∈ (aget (states.destructSet.foldl (fun m h => aappend m h R)
      t.lookup.destructs) k).getD [] ↔ _
    constructor
    · intro hmem
      by_cases hk : k ∈ states.destructSet
      · obtain ⟨n, hn⟩ := hchar.2 hk
        rw [hn] at hmem
        simp only [Option.getD_some, List.mem_append, List.mem_replicate] at hmem
        rcases hmem with h | ⟨_, h⟩
        · obtain ⟨l, hg, hkl⟩ := (hw.destrMem k r).mp h
          exact ⟨l, hsub r l hg, hkl⟩
        · refine ⟨newDiffLayer R (parent.id + 1) block nodes states P, ?_, hk⟩
          rw [h]
          exact hRL
      · rw [hchar.1 hk] at hmem
        obtain ⟨l, hg, hkl⟩ := (hw.destrMem k r).mp hmem
        exact ⟨l, hsub r l hg, hkl⟩
    · rintro ⟨l, hg, hkl⟩
      rw [hget' r] at hg
      by_cases hr : r = R
      · rw [if_pos hr] at hg
        cases hg
        subst hr
        obtain ⟨n, hn⟩ := hchar.2 hkl
        rw [hn]
        simp [List.mem_replicate]
      · rw [if_neg hr] at hg
        have hold := (hw.destrMem k r).mpr ⟨l, hg, hkl⟩
        exact mem_getD_foldl_aappend_mono R r states.destructSet t.lookup.destructs k hold
  · -- destrOrd
    intro k
    have hchar := foldl_aappend_char R states.destructSet t.lookup.destructs k
    have hold : ((aget t.lookup.destructs k).getD []).Pairwise
        (fun x y => ¬ properAnc (addResult t parent R P block nodes states) y x) := by
      refine List.Pairwise.imp_of_mem ?_ (hw.destrOrd k)
      intro a b ha hb hnab hcontra
      obtain ⟨la, hga, _⟩ := (hw.destrMem k a).mp ha
      exact hnab ((hpaOld a la b hga).mp hcontra)
    show (((aget (states.destructSet.foldl (fun m h => aappend m h R)
      t.lookup.destructs) k).getD [])).Pairwise _
    by_cases hk : k ∈ states.destructSet
    · obtain ⟨n, hn⟩ := hchar.2 hk
      rw [hn]
      simp only [Option.getD_some]
      rw [List.pairwise_append]
      refine ⟨hold, List.pairwise_replicate.mpr (Or.inr (hnoancR R)), ?_⟩
      intro a _ b hb
      rw [List.mem_replicate] at hb
      rw [hb.2]
      exact hnoancR a
    · rw [hchar.1 hk]
      exact hold
  · -- accMem
    intro k r
    have hchar := foldl_aappend_char R states.accountData t.lookup.accounts k
    show r ∈ (aget (states.accountData.foldl (fun m h => aappend m h R)
      t.lookup.accounts) k).getD [] ↔ _
    constructor
    · intro hmem
      by_cases hk : k ∈ states.accountData
      · obtain ⟨n, hn⟩ := hchar.2 hk
        rw [hn] at hmem
        simp only [Option.getD_some, List.mem_append, List.mem_replicate] at hmem
        rcases hmem with h | ⟨_, h⟩
        · obtain ⟨l, hg, hkl⟩ := (hw.accMem k r).mp h
          exact ⟨l, hsub r l hg, hkl⟩
        · refine ⟨newDiffLayer R (parent.id + 1) block nodes states P, ?_, hk⟩
          rw [h]
          exact hRL
      · rw [hchar.1 hk] at hmem
        obtain ⟨l, hg, hkl⟩ := (hw.accMem k r).mp hmem
        exact ⟨l, hsub r l hg, hkl⟩
    · rintro ⟨l, hg, hkl⟩
      rw [hget' r] at hg
      by_cases hr : r = R
      · rw [if_pos hr] at hg
        cases hg
        subst hr
        obtain ⟨n, hn⟩ := hchar.2 hkl
        rw [hn]
        simp [List.mem_replicate]
      · rw [if_neg hr] at hg
        have hold := (hw.accMem k r).mpr ⟨l, hg, hkl⟩
        exact mem_getD_foldl_aappend_mono R r states.accountData t.lookup.accounts k hold
  · -- accOrd
    intro k
    have hchar := foldl_aappend_char R states.accountData t.lookup.accounts k
    have hold : ((aget t.lookup.accounts k).getD []).Pairwise
        (fun x y => ¬ properAnc (addResult t parent R P block nodes states) y x) := by
      refine List.Pairwise.imp_of_mem ?_ (hw.accOrd k)
      intro a b ha hb hnab hcontra
      obtain ⟨la, hga, _⟩ := (hw.accMem k a).mp ha
      exact hnab ((hpaOld a la b hga).mp hcontra)
    show (((aget (states.accountData.foldl (fun m h => aappend m h R)
      t.lookup.accounts) k).getD [])).Pairwise _
    by_cases hk : k ∈ states.accountData
    · obtain ⟨n, hn⟩ := hchar.2 hk
      rw [hn]
      simp only [Option.getD_some]
      rw [List.pairwise_append]
      refine ⟨hold, List.pairwise_replicate.mpr (Or.inr (hnoancR R)), ?_⟩
      intro a _ b hb
      rw [List.mem_replicate] at hb
      rw [hb.2]
      exact hnoancR a
    · rw [hchar.1 hk]
      exact hold

theorem WF_add {t : LayerTree} (hw : WF t) (root parentRoot : Hash) (block : Nat)
    (nodes : List (Hash × List NodePath)) (states : StateKeys) {t2 : LayerTree}
    (hfresh : aget t.layers (trieRootHash root) = none)
    (hok : t.add root parentRoot block nodes states = .ok t2) : WF t2 := by
  by_cases hcyc : trieRootHash root = trieRootHash parentRoot
  · simp [LayerTree.add, hcyc] at hok
  · cases hpar : aget t.layers (trieRootHash parentRoot) with
    | none => simp [LayerTree.add, hcyc, hpar] at hok
    | some parent =>
      rw [add_eq_addResult hcyc hpar block nodes states] at hok
      cases hok
      exact WF_addResult hw (trieRootHash_ne_zero root) hfresh hpar block nodes states

theorem WF_build : ∀ (ops : List AddOp) (t : LayerTree), WF t → WF (build t ops) := by
  intro ops
  induction ops with
  | nil => intro t hw; exact hw
  | cons op rest ih =>
    intro t hw
    simp only [build]
    apply ih
    by_cases hs : (aget t.layers (trieRootHash op.root)).isSome
    · rw [if_pos hs]
      exact hw
    · rw [if_neg hs]
      have hfresh : aget t.layers (trieRootHash op.root) = none := by
        cases h : aget t.layers (trieRootHash op.root) with
        | none => rfl
        | some v => rw [h] at hs; exact absurd rfl hs
      cases hok : t.add op.root op.parentRoot op.block op.nodes op.states with
      | ok u =>
        exact WF_add hw op.root op.parentRoot op.block op.nodes op.states hfresh hok
      | error e =>
        exact hw

theorem chain_id_disk {t : LayerTree} (hw : WF t) {r : Hash} {l : LayerRec}
    (hg : aget t.layers r = some l) (hp : l.parent = none) :
    l.id + 1 = t.base.id + (chainOf t r).length := by
  have hr := hw.diskUnique r l hg hp
  subst hr
  have hb := hw.baseGet
  rw [hg] at hb
  have hlb : l = t.base := Option.some.inj hb
  rw [chainOf_disk hg hp]
  simp [hlb]

theorem chain_id_depth {t : LayerTree} (hw : WF t) :
    ∀ (n : Nat) (r : Hash) (l : LayerRec), aget t.layers r = some l →
      l.id ≤ t.base.id + n → l.id + 1 = t.base.id + (chainOf t r).length := by
  intro n
  induction n with
  | zero =>
    intro r l hg hle
    cases hp : l.parent with
    | none => exact chain_id_disk hw hg hp
    | some p =>
      obtain ⟨pl, hpg, hpid⟩ := hw.wfc.parentStep r l p hg hp
      have := hw.wfc.idGe p pl hpg
      omega
  | succ n ih =>
    intro r l hg hle
    cases hp : l.parent with
    | none => exact chain_id_disk hw hg hp
    | some p =>
      obtain ⟨pl, hpg, hpid⟩ := hw.wfc.parentStep r l p hg hp
      rw [chainOf_cons hw.wfc hg hp]
      have hih := ih p pl hpg (by omega)
      simp only [List.length_cons]
      omega

/-- C9: every diff layer created by `tree.add` is assigned state id
`parent.id + 1`; consequently along any parent chain the state ids step
down by exactly one, and a live layer's id equals the disk layer's id
plus its depth above the disk layer (its chain length minus one). -/
theorem state_id_depth {t : LayerTree} (hw : WF t) :
    (∀ (root parentRoot : Hash) (block : Nat) (nodes : List (Hash × List NodePath))
       (states : StateKeys) (t2 : LayerTree) (parent : LayerRec),
       aget t.layers (trieRootHash parentRoot) = some parent →
       t.add root parentRoot block nodes states = .ok t2 →
       aget t2.layers (trieRootHash root)
         = some (newDiffLayer (trieRootHash root) (parent.id + 1) block nodes states
             (trieRootHash parentRoot)))
    ∧ (∀ (r : Hash) (l : LayerRec) (p : Hash), aget t.layers r = some l →
       l.parent = some p → ∃ pl, aget t.layers p = some pl ∧ l.id = pl.id + 1)
    ∧ (∀ (r : Hash) (l : LayerRec), aget t.layers r = some l →
       l.id = t.base.id + ((chainOf t r).length - 1)) := by
  refine ⟨?_, hw.wfc.parentStep, ?_⟩
  · intro root parentRoot block nodes states t2 parent hpar hok
    by_cases hcyc : trieRootHash root = trieRootHash parentRoot
    · simp [LayerTree.add, hcyc] at hok
    · rw [add_eq_addResult hcyc hpar block nodes states] at hok
      cases hok
      exact aget_aset_self t.layers (trieRootHash root) _
  · intro r l hg
    have h := chain_id_depth hw l.id r l hg (Nat.le_add_left l.id t.base.id)
    have hge := hw.wfc.idGe r l hg
    omega

theorem state_id_depth_witness :
    WF treeW ∧ ∃ l, aget treeW.layers 4 = some l ∧
      l.id = treeW.base.id + ((chainOf treeW 4).length - 1) := by
  have hw : WF treeW := WF_build opsW (initTree 1 0) (WF_init 1 0)
  refine ⟨hw, ?_⟩
  cases hg : aget treeW.layers 4 with
  | none =>
    have hs : (aget treeW.layers 4).isSome = true := by decide
    rw [hg] at hs
    simp at hs
  | some l =>
    exact ⟨l, rfl, (state_id_depth hw).2.2 4 l hg⟩

theorem isDescendant_iff {t : LayerTree} (hw : WF t) (r a : Hash) :
    t.isDescendant r a = true ↔ properAnc t a r := by
  have h := hw.descSpec a r
  unfold LayerTree.isDescendant
  cases hd : aget t.descendants a with
  | none =>
    rw [hd] at h
    simp only [Option.getD_none, List.not_mem_nil, false_iff] at h
    simp only [Bool.false_eq_true, false_iff]
    exact h
  | some s =>
    rw [hd] at h
    simp only [Option.getD_some] at h
    rw [decide_eq_true_iff]
    exact h

/-- The Boolean test applied by `findTip`: the candidate is the head itself
or a recorded ancestor of the head. -/
def tipTest (t : LayerTree) (head x : Hash) : Bool :=
  decide (x = head) || t.isDescendant head x

theorem findTipAux_eq_find? (t : LayerTree) (head : Hash) :
    ∀ l : List Hash, findTipAux t head l = (l.find? (tipTest t head)).getD 0 := by
  intro l
  induction l with
  | nil => rfl
  | cons x rest ih =>
    by_cases h : x = head ∨ t.isDescendant head x = true
    · have hb : tipTest t head x = true := by
        unfold tipTest
        rcases h with h | h
        · simp [h]
        · simp [h]
      simp only [findTipAux]
      rw [if_pos h, List.find?_cons_of_pos _ hb]
      rfl
    · have hb : ¬ tipTest t head x = true := by
        unfold tipTest
        simp only [Bool.or_eq_true, decide_eq_true_iff]
        exact h
      simp only [findTipAux]
      rw [if_neg h, List.find?_cons_of_neg _ hb]
      exact ih

theorem tipTest_true_iff {t : LayerTree} (hw : WF t) {head : Hash} {hl : LayerRec}
    (hhead : aget t.layers head = some hl) (x : Hash) :
    tipTest t head x = true ↔ x ∈ chainOf t head := by
  unfold tipTest
  rw [Bool.or_eq_true, decide_eq_true_iff, isDescendant_iff hw head x]
  exact properAnc_iff_chain hw.wfc hhead x

theorem find?_first_pairwise {α : Type} {Q : α → α → Prop} (p : α → Bool) :
    ∀ (l : List α), l.Pairwise Q → ∀ a, a ∈ l → p a = true →
      (∀ b, b ∈ l → Q b a → p b = false) → l.find? p = some a := by
  intro l
  induction l with
  | nil => intro _ a ha; exact absurd ha (List.not_mem_nil a)
  | cons c rest ih =>
    intro hpw a ha hpa hbefore
    rw [List.pairwise_cons] at hpw
    by_cases hca : c = a
    · subst hca
      exact List.find?_cons_of_pos rest hpa
    · rcases List.mem_cons.mp ha with h | h
      · exact absurd h.symm hca
      · have hpc : p c = false := hbefore c (List.mem_cons_self c rest) (hpw.1 a h)
        rw [List.find?_cons_of_neg rest (by rw [hpc]; exact Bool.false_ne_true)]
        exact ih hpw.2 a h hpa (fun b hb hq => hbefore b (List.mem_cons_of_mem c hb) hq)

theorem find?_matches_after {α : Type} {Q : α → α → Prop} (p : α → Bool) :
    ∀ (l : List α), l.Pairwise Q → ∀ a, l.find? p = some a →
      ∀ b, b ∈ l → p b = true → b = a ∨ Q a b := by
  intro l
  induction l with
  | nil => intro _ a ha; rw [List.find?_nil] at ha; cases ha
  | cons c rest ih =>
    intro hpw a ha b hb hpb
    rw [List.pairwise_cons] at hpw
    cases hpc : p c with
    | true =>
      rw [List.find?_cons_of_pos rest hpc] at ha
      have hca := Option.some.inj ha
      rcases List.mem_cons.mp hb with h | h
      · left
        rw [h, hca]
      · right
        rw [← hca]
        exact hpw.1 b h
    | false =>
      rw [List.find?_cons_of_neg rest (by rw [hpc]; exact Bool.false_ne_true)] at ha
      rcases List.mem_cons.mp hb with h | h
      · rw [h, hpc] at hpb
        cases hpb
      · exact ih hpw.2 a ha b h hpb

theorem chain_trans {t : LayerTree} (w : WFc t) {z : Hash} {lz : LayerRec}
    (hgz : aget t.layers z = some lz) {y x : Hash}
    (hy : y ∈ chainOf t z) (hx : x ∈ chainOf t y) : x ∈ chainOf t z := by
  suffices h : ∀ (n : Nat) (z2 : Hash) (lz2 : LayerRec), aget t.layers z2 = some lz2 →
      lz2.id ≤ t.base.id + n → ∀ y2, y2 ∈ chainOf t z2 → ∀ x2, x2 ∈ chainOf t y2 →
      x2 ∈ chainOf t z2 by
    exact h lz.id z lz hgz (Nat.le_add_left lz.id t.base.id) y hy x hx
  intro n
  induction n with
  | zero =>
    intro z2 lz2 hgz2 hle y2 hy2 x2 hx2
    cases hp : lz2.parent with
    | none =>
      rw [chainOf_disk hgz2 hp, List.mem_singleton] at hy2
      subst hy2
      exact hx2
    | some p =>
      obtain ⟨pl, hpg, hpid⟩ := w.parentStep z2 lz2 p hgz2 hp
      have := w.idGe p pl hpg
      omega
  | succ n ih =>
    intro z2 lz2 hgz2 hle y2 hy2 x2 hx2
    cases hp : lz2.parent with
    | none =>
      rw [chainOf_disk hgz2 hp, List.mem_singleton] at hy2
      subst hy2
      exact hx2
    | some p =>
      obtain ⟨pl, hpg, hpid⟩ := w.parentStep z2 lz2 p hgz2 hp
      rw [chainOf_cons w hgz2 hp] at hy2
      rcases List.mem_cons.mp hy2 with h | h
      · subst h
        exact hx2
      · have hres := ih p pl hpg (by omega) y2 h x2 hx2
        rw [chainOf_cons w hgz2 hp]
        exact List.mem_cons_of_mem z2 hres

theorem findTip_spec {t : LayerTree} (hw : WF t) {head : Hash} {hl : LayerRec}
    (hhead : aget t.layers head = some hl) (L : List Hash)
    (hord : L.Pairwise (fun x y => ¬ properAnc t y x)) :
    (findTip t L head = 0 ∧ ∀ b ∈ L, b ∉ chainOf t head) ∨
    (findTip t L head ∈ L ∧ findTip t L head ∈ chainOf t head ∧
      ∀ b ∈ L, b ∈ chainOf t head → b ∈ chainOf t (findTip t L head)) := by
  have hordrev : L.reverse.Pairwise (fun x y => ¬ properAnc t x y) := by
    rw [List.pairwise_reverse]
    exact hord
  cases hf : L.reverse.find? (tipTest t head) with
  | none =>
    left
    have hval : findTip t L head = 0 := by
      unfold findTip
      rw [findTipAux_eq_find?, hf]
      rfl
    refine ⟨hval, ?_⟩
    intro b hb hbc
    rw [List.find?_eq_none] at hf
    exact hf b (List.mem_reverse.mpr hb) ((tipTest_true_iff hw hhead b).mpr hbc)
  | some f =>
    right
    have hval : findTip t L head = f := by
      unfold findTip
      rw [findTipAux_eq_find?, hf]
      rfl
    have hft := List.find?_some hf
    have hfm : f ∈ L := List.mem_reverse.mp (List.mem_of_find?_eq_some hf)
    have hfc : f ∈ chainOf t head := (tipTest_true_iff hw hhead f).mp hft
    rw [hval]
    refine ⟨hfm, hfc, ?_⟩
    intro b hb hbc
    obtain ⟨lb, hgb⟩ := chain_live hw.wfc hhead hbc
    by_cases hbf : b = f
    · subst hbf
      exact chain_self hw.wfc hgb
    · have hafter := find?_matches_after (tipTest t head) L.reverse hordrev f hf b
        (List.mem_reverse.mpr hb) ((tipTest_true_iff hw hhead b).mpr hbc)
      rcases hafter with h | h
      · exact absurd h hbf
      · rcases chain_total hw.wfc hhead hbc hfc with hh | hh
        · exact hh
        · exact absurd (properAnc_of_chain_ne hw.wfc hgb hh (fun he => hbf he.symm)) h

/-- C1: for a well-formed layer tree, a live head root and any account key,
the fast index query `lookupAccount` returns exactly the layer found by a
brute-force walk of the parent chain from the head (topmost layer whose
destruct set or account list touched the key, more recent wins), and the
disk layer when no ancestor ever modified the key. -/
theorem lookupAccount_refines_walk {t : LayerTree} (hw : WF t) {head : Hash}
    {hl : LayerRec} (hhead : aget t.layers head = some hl) (k : Hash) :
    t.lookupAccount k head = walkAccount t k head := by
  have hmodD : ∀ b ∈ (aget t.lookup.destructs k).getD [],
      accountModifiedAt t k b = true := by
    intro b hb
    obtain ⟨l, hg, hkl⟩ := (hw.destrMem k b).mp hb
    unfold accountModifiedAt
    rw [hg]
    simp [hkl]
  have hmodA : ∀ b ∈ (aget t.lookup.accounts k).getD [],
      accountModifiedAt t k b = true := by
    intro b hb
    obtain ⟨l, hg, hkl⟩ := (hw.accMem k b).mp hb
    unfold accountModifiedAt
    rw [hg]
    simp [hkl]
  have hmodDA : ∀ b, accountModifiedAt t k b = true →
      b ∈ (aget t.lookup.destructs k).getD [] ∨
      b ∈ (aget t.lookup.accounts k).getD [] := by
    intro b hb
    unfold accountModifiedAt at hb
    cases hg : aget t.layers b with
    | none => rw [hg] at hb; cases hb
    | some l =>
      rw [hg] at hb
      simp only [Bool.or_eq_true, decide_eq_true_iff] at hb
      rcases hb with h | h
      · exact Or.inl ((hw.destrMem k b).mpr ⟨l, hg, h⟩)
      · exact Or.inr ((hw.accMem k b).mpr ⟨l, hg, h⟩)
  have hwalk_none : (∀ b ∈ chainOf t head, accountModifiedAt t k b = false) →
      walkAccount t k head = some t.base := by
    intro h
    unfold walkAccount
    have hf : (chainFrom t t.layers.length head).find?
        (fun c => accountModifiedAt t k c) = none := by
      rw [List.find?_eq_none]
      intro x hx
      rw [h x hx]
      exact Bool.false_ne_true
    rw [hf]
  have hwalk_some : ∀ tip (ltip : LayerRec), aget t.layers tip = some ltip →
      tip ∈ chainOf t head → accountModifiedAt t k tip = true →
      (∀ b ∈ chainOf t head, accountModifiedAt t k b = true → b ∈ chainOf t tip) →
      walkAccount t k head = aget t.layers tip := by
    intro tip ltip hgt htc hmod hmax
    unfold walkAccount
    have hf : (chainFrom t t.layers.length head).find?
        (fun c => accountModifiedAt t k c) = some tip := by
      show (chainOf t head).find? (fun c => accountModifiedAt t k c) = some tip
      apply find?_first_pairwise (fun c => accountModifiedAt t k c) (chainOf t head)
        (chain_pairwise_id hw.wfc hhead) tip htc hmod
      intro b hb hq
      cases hpb : accountModifiedAt t k b with
      | false => rfl
      | true =>
        exfalso
        have hbc := hmax b hb hpb
        obtain ⟨lb, hgb⟩ := chain_live hw.wfc hhead hb
        have hle := (chain_id_le hw.wfc hgt hbc hgb).1
        have hlt := hq lb ltip hgb hgt
        omega
    rw [hf]
  have hlive_ne : ∀ x ∈ chainOf t head, x ≠ 0 := by
    intro x hx
    obtain ⟨lx, hlx⟩ := chain_live hw.wfc hhead hx
    exact (hw.wfc.rootsMatch x lx hlx).2
  rcases findTip_spec hw hhead ((aget t.lookup.destructs k).getD []) (hw.destrOrd k) with
    ⟨hA0, hDnone⟩ | ⟨hAmem, hAchain, hAmax⟩
  · rcases findTip_spec hw hhead ((aget t.lookup.accounts k).getD []) (hw.accOrd k) with
      ⟨hB0, hBnone⟩ | ⟨hBmem, hBchain, hBmax⟩
    · have hlk : t.lookupAccount k head = some t.base := by
        unfold LayerTree.lookupAccount LayerTree.accountTip stateTip
        simp [hA0, hB0]
      rw [hlk]
      refine (hwalk_none ?_).symm
      intro b hbc
      cases hpb : accountModifiedAt t k b with
      | false => rfl
      | true =>
        exfalso
        rcases hmodDA b hpb with h | h
        · exact hDnone b h hbc
        · exact hBnone b h hbc
    · obtain ⟨lB, hgB⟩ := chain_live hw.wfc hhead hBchain
      have hBne : findTip t ((aget t.lookup.accounts k).getD []) head ≠ 0 :=
        hlive_ne _ hBchain
      have hlk : t.lookupAccount k head
          = aget t.layers (findTip t ((aget t.lookup.accounts k).getD []) head) := by
        unfold LayerTree.lookupAccount LayerTree.accountTip stateTip
        simp [hA0, hBne]
      rw [hlk]
      refine (hwalk_some _ lB hgB hBchain (hmodA _ hBmem) ?_).symm
      intro b hbc hpb
      rcases hmodDA b hpb with h | h
      · exact absurd hbc (hDnone b h)
      · exact hBmax b h hbc
  · obtain ⟨lA, hgA⟩ := chain_live hw.wfc hhead hAchain
    have hAne : findTip t ((aget t.lookup.destructs k).getD []) head ≠ 0 :=
      hlive_ne _ hAchain
    rcases findTip_spec hw hhead ((aget t.lookup.accounts k).getD []) (hw.accOrd k) with
      ⟨hB0, hBnone⟩ | ⟨hBmem, hBchain, hBmax⟩
    · have hlk : t.lookupAccount k head
          = aget t.layers (findTip t ((aget t.lookup.destructs k).getD []) head) := by
        unfold LayerTree.lookupAccount LayerTree.accountTip stateTip
        simp [hB0, hAne]
      rw [hlk]
      refine (hwalk_some _ lA hgA hAchain (hmodD _ hAmem) ?_).symm
      intro b hbc hpb
      rcases hmodDA b hpb with h | h
      · exact hAmax b h hbc
      · exact absurd hbc (hBnone b h)
    · obtain ⟨lB, hgB⟩ := chain_live hw.wfc hhead hBchain
      have hBne : findTip t ((aget t.lookup.accounts k).getD []) head ≠ 0 :=
        hlive_ne _ hBchain
      by_cases hEq : findTip t ((aget t.lookup.destructs k).getD []) head
          = findTip t ((aget t.lookup.accounts k).getD []) head
      · have hlk : t.lookupAccount k head
            = aget t.layers (findTip t ((aget t.lookup.accounts k).getD []) head) := by
          unfold LayerTree.lookupAccount LayerTree.accountTip stateTip
          simp [hEq, hBne]
        rw [hlk]
        refine (hwalk_some _ lB hgB hBchain (hmodA _ hBmem) ?_).symm
        intro b hbc hpb
        rcases hmodDA b hpb with h | h
        · have hx := hAmax b h hbc
          rw [hEq] at hx
          exact hx
        · exact hBmax b h hbc
      · by_cases hdesc : t.isDescendant
            (findTip t ((aget t.lookup.destructs k).getD []) head)
            (findTip t ((aget t.lookup.accounts k).getD []) head) = true
        · have hBinA : findTip t ((aget t.lookup.accounts k).getD []) head
              ∈ chainOf t (findTip t ((aget t.lookup.destructs k).getD []) head) :=
            (properAnc_iff_chain hw.wfc hgA _).mp
              (Or.inr ((isDescendant_iff hw _ _).mp hdesc))
          have hlk : t.lookupAccount k head
              = aget t.layers (findTip t ((aget t.lookup.destructs k).getD []) head) := by
            unfold LayerTree.lookupAccount LayerTree.accountTip stateTip
            simp [hAne, hBne, hEq, hdesc]
          rw [hlk]
          refine (hwalk_some _ lA hgA hAchain (hmodD _ hAmem) ?_).symm
          intro b hbc hpb
          rcases hmodDA b hpb with h | h
          · exact hAmax b h hbc
          · exact chain_trans hw.wfc hgA hBinA (hBmax b h hbc)
        · have hAinB : findTip t ((aget t.lookup.destructs k).getD []) head
              ∈ chainOf t (findTip t ((aget t.lookup.accounts k).getD []) head) := by
            rcases chain_total hw.wfc hhead hAchain hBchain with h | h
            · exact h
            · exact absurd ((isDescendant_iff hw _ _).mpr
                (properAnc_of_chain_ne hw.wfc hgA h (fun he => hEq he.symm))) hdesc
          have hlk : t.lookupAccount k head
              = aget t.layers (findTip t ((aget t.lookup.accounts k).getD []) head) := by
            unfold LayerTree.lookupAccount LayerTree.accountTip stateTip
            simp [hAne, hBne, hEq, hdesc]
          rw [hlk]
          refine (hwalk_some _ lB hgB hBchain (hmodA _ hBmem) ?_).symm
          intro b hbc hpb
          rcases hmodDA b hpb with h | h
          · exact chain_trans hw.wfc hgB hAinB (hAmax b h hbc)
          · exact hBmax b h hbc

theorem lookupAccount_refines_walk_witness :
    WF treeW ∧ ∃ hl, aget treeW.layers 4 = some hl ∧
      treeW.lookupAccount 10 4 = walkAccount treeW 10 4 := by
  have hw : WF treeW := WF_build opsW (initTree 1 0) (WF_init 1 0)
  refine ⟨hw, ?_⟩
  cases hg : aget treeW.layers 4 with
  | none =>
    have hs : (aget treeW.layers 4).isSome = true := by decide
    rw [hg] at hs
    simp at hs
  | some hl =>
    exact ⟨hl, rfl, lookupAccount_refines_walk hw hg 10⟩

theorem aget_det {κ α : Type} [DecidableEq κ] {m : List (κ × α)} {k : κ} {a b : α}
    (h1 : aget m k = some a) (h2 : aget m k = some b) : a = b := by
  rw [h1] at h2
  exact Option.some.inj h2

theorem aset_existing_keys {κ α : Type} [DecidableEq κ] :
    ∀ (m : List (κ × α)) (k : κ) (v w : α), aget m k = some v →
      (aset m k w).map Prod.fst = m.map Prod.fst := by
  intro m
  induction m with
  | nil => intro k v w h; cases h
  | cons hd tl ih =>
    intro k v w h
    by_cases hh : hd.1 = k
    · simp [aset, hh]
    · have h2 : aget tl k = some v := by
        unfold aget at h
        rw [if_neg hh] at h
        exact h
      simp only [aset]
      rw [if_neg hh]
      simp [ih k v w h2]

theorem aset_existing_length {κ α : Type} [DecidableEq κ]
    (m : List (κ × α)) (k : κ) (v w : α) (h : aget m k = some v) :
    (aset m k w).length = m.length := by
  have := aset_existing_keys m k v w h
  have h1 : ((aset m k w).map Prod.fst).length = (m.map Prod.fst).length := by rw [this]
  simpa using h1

theorem chainFrom_mem_live {t : LayerTree} :
    ∀ {f : Nat} {y x : Hash}, x ∈ chainFrom t f y → ∃ ly, aget t.layers y = some ly := by
  intro f y x h
  cases f with
  | zero => cases h
  | succ f =>
    unfold chainFrom at h
    cases hg : aget t.layers y with
    | none => rw [hg] at h; cases h
    | some l => exact ⟨l, rfl⟩

theorem mem_getD_aappend_iff {κ : Type} [DecidableEq κ]
    (m : List (κ × List Hash)) (p y : κ) (k c : Hash) :
    c ∈ (aget (aappend m p k) y).getD [] ↔
      c ∈ (aget m y).getD [] ∨ (y = p ∧ c = k) := by
  by_cases hy : y = p
  · subst hy
    rw [aget_aappend_self]
    simp
  · rw [aget_aappend_ne m p y k (fun he => hy he.symm)]
    simp [hy]

theorem buildChildren_mem_aux :
    ∀ (L : List (Hash × LayerRec)) (m : List (Hash × List Hash)) (y c : Hash),
      c ∈ (aget (L.foldl (fun m2 rl =>
          match rl.2.parent with
          | some p => aappend m2 p rl.1
          | none => m2) m) y).getD [] ↔
        c ∈ (aget m y).getD [] ∨ ∃ lc, (c, lc) ∈ L ∧ lc.parent = some y := by
  intro L
  induction L with
  | nil =>
    intro m y c
    simp
  | cons hd tl ih =>
    intro m y c
    cases hp : hd.2.parent with
    | none =>
      have hstep : (hd :: tl).foldl (fun m2 rl =>
          match rl.2.parent with
          | some p => aappend m2 p rl.1
          | none => m2) m = tl.foldl (fun m2 rl =>
          match rl.2.parent with
          | some p => aappend m2 p rl.1
          | none => m2) m := by
        simp [List.foldl_cons, hp]
      rw [hstep, ih]
      constructor
      · rintro (h | ⟨lc, hmem, hpar⟩)
        · exact Or.inl h
        · exact Or.inr ⟨lc, List.mem_cons_of_mem hd hmem, hpar⟩
      · rintro (h | ⟨lc, hmem, hpar⟩)
        · exact Or.inl h
        · rcases List.mem_cons.mp hmem with he | he
          · exfalso
            have h2 : hd.2 = lc := by rw [← he]
            rw [h2, hpar] at hp
            cases hp
          · exact Or.inr ⟨lc, he, hpar⟩
    | some p =>
      have hstep : (hd :: tl).foldl (fun m2 rl =>
          match rl.2.parent with
          | some p2 => aappend m2 p2 rl.1
          | none => m2) m = tl.foldl (fun m2 rl =>
          match rl.2.parent with
          | some p2 => aappend m2 p2 rl.1
          | none => m2) (aappend m p hd.1) := by
        simp [List.foldl_cons, hp]
      rw [hstep, ih, mem_getD_aappend_iff]
      constructor
      · rintro ((h | ⟨hy, hc⟩) | ⟨lc, hmem, hpar⟩)
        · exact Or.inl h
        · subst hy
          subst hc
          exact Or.inr ⟨hd.2, by rw [← hp]; exact ⟨List.mem_cons_self hd tl, rfl⟩⟩
        · exact Or.inr ⟨lc, List.mem_cons_of_mem hd hmem, hpar⟩
      · rintro (h | ⟨lc, hmem, hpar⟩)
        · exact Or.inl (Or.inl h)
        · rcases List.mem_cons.mp hmem with he | he
          · have he1 : hd.1 = c := by rw [← he]
            have he2 : hd.2 = lc := by rw [← he]
            rw [he2, hpar] at hp
            cases hp
            exact Or.inl (Or.inr ⟨rfl, he1.symm⟩)
          · exact Or.inr ⟨lc, he, hpar⟩

theorem buildChildren_mem (L : List (Hash × LayerRec)) (y c : Hash) :
    c ∈ (aget (buildChildren L) y).getD [] ↔
      ∃ lc, (c, lc) ∈ L ∧ lc.parent = some y := by
  unfold buildChildren
  rw [buildChildren_mem_aux]
  simp [aget]

theorem aget_of_mem_nodup {κ α : Type} [DecidableEq κ] :
    ∀ (m : List (κ × α)), (m.map Prod.fst).Nodup → ∀ (k : κ) (v : α),
      (k, v) ∈ m → aget m k = some v := by
  intro m
  induction m with
  | nil => intro _ k v h; cases h
  | cons hd tl ih =>
    intro hnd k v h
    rw [List.map_cons, List.nodup_cons] at hnd
    rcases List.mem_cons.mp h with he | he
    · rw [← he]
      unfold aget
      rw [if_pos rfl]
    · have hne : hd.1 ≠ k := by
        intro hx
        exact hnd.1 (hx ▸ (List.mem_map.mpr ⟨(k, v), he, rfl⟩))
      unfold aget
      rw [if_neg hne]
      exact ih hnd.2 k v he

theorem removeLookupOf_layers (st : PruneSt) (root : Hash) :
    (removeLookupOf st root).layers = st.layers := by
  unfold removeLookupOf
  cases h : aget st.layers root with
  | none => rfl
  | some l =>
    by_cases hp : l.parent = none
    · simp [hp]
    · simp [hp]

/-- Reachability along the `children` edges used by `cap`'s recursive
`remove`. -/
inductive ReachC (children : List (Hash × List Hash)) : Hash → Hash → Prop
  | refl (x : Hash) : ReachC children x x
  | step {x y c : Hash} : ReachC children x y →
      c ∈ (aget children y).getD [] → ReachC children x c

theorem reachC_trans {children : List (Hash × List Hash)} {x y z : Hash}
    (h1 : ReachC children x y) (h2 : ReachC children y z) : ReachC children x z := by
  induction h2 with
  | refl => exact h1
  | step hr hc ih => exact ReachC.step ih hc

theorem removeRec_preserves (children : List (Hash × List Hash)) :
    ∀ (fuel : Nat) (st : PruneSt) (x y : Hash), ¬ ReachC children x y →
      aget (removeRec children fuel st x).layers y = aget st.layers y := by
  intro fuel
  induction fuel with
  | zero => intro st x y _; rfl
  | succ fuel ih =>
    intro st x y h
    have hyx : y ≠ x := fun he => h (by rw [he]; exact ReachC.refl x)
    have haux : ∀ (cs : List Hash), (∀ c ∈ cs, ¬ ReachC children c y) →
        ∀ (st2 : PruneSt),
          aget ((cs.foldl (fun s c => removeRec children fuel s c) st2).layers) y
            = aget st2.layers y := by
      intro cs
      induction cs with
      | nil => intro _ st2; rfl
      | cons c rest ihc =>
        intro hcs st2
        show aget ((rest.foldl (fun s c2 => removeRec children fuel s c2)
          (removeRec children fuel st2 c)).layers) y = _
        rw [ihc (fun b hb => hcs b (List.mem_cons_of_mem c hb)) _]
        exact ih st2 c y (hcs c (List.mem_cons_self c rest))
    have hstep : ∀ c ∈ (aget children x).getD [], ¬ ReachC children c y := by
      intro c hc hcy
      exact h (reachC_trans (ReachC.step (ReachC.refl x) hc) hcy)
    show aget ((((aget children x).getD []).foldl
      (fun s c => removeRec children fuel s c)
      { removeLookupOf st x with
        layers := adel (removeLookupOf st x).layers x
        descendants := adel (removeLookupOf st x).descendants x }).layers) y = _
    rw [haux _ hstep _]
    show aget (adel (removeLookupOf st x).layers x) y = _
    rw [aget_adel_ne _ x y (fun he => hyx he.symm), removeLookupOf_layers]

theorem reach_chain {u : LayerTree} (w : WFc u) {x y : Hash}
    (hx : ∃ lx, aget u.layers x = some lx)
    (hr : ReachC (buildChildren u.layers) x y) : x ∈ chainOf u y := by
  induction hr with
  | refl =>
    obtain ⟨lx, hlx⟩ := hx
    exact chain_self w hlx
  | step hr2 hc ih =>
    obtain ⟨lc, hmem, hpar⟩ := (buildChildren_mem u.layers _ _).mp hc
    have hgc := aget_of_mem_nodup u.layers w.keysNodup _ lc hmem
    rw [chainOf_cons w hgc hpar]
    exact List.mem_cons_of_mem _ ih

theorem chain_terminal_unique {u : LayerTree} (w : WFc u) {y : Hash} {ly : LayerRec}
    (hgy : aget u.layers y = some ly) {a b : Hash} {la lb : LayerRec}
    (ha : a ∈ chainOf u y) (hb : b ∈ chainOf u y)
    (hga : aget u.layers a = some la) (hgb : aget u.layers b = some lb)
    (hpa : la.parent = none) (hpb : lb.parent = none) : a = b := by
  rcases chain_total w hgy ha hb with h | h
  · rw [chainOf_disk hgb hpb] at h
    exact List.mem_singleton.mp h
  · rw [chainOf_disk hga hpa] at h
    exact (List.mem_singleton.mp h).symm

theorem WFc_relink {t : LayerTree} (hw : WF t) {pr : Hash} {pld : LayerRec}
    (hpld : aget t.layers pr = some pld) :
    WFc { t with layers := aset t.layers (persistL pld).root (persistL pld) } := by
  have hroot : pld.root = pr := (hw.wfc.rootsMatch pr pld hpld).1
  have hprne : pr ≠ 0 := (hw.wfc.rootsMatch pr pld hpld).2
  have hnbroot : (persistL pld).root = pr := hroot
  have hget2 : ∀ x, aget (aset t.layers (persistL pld).root (persistL pld)) x
      = if x = pr then some (persistL pld) else aget t.layers x := by
    intro x
    by_cases hx : x = pr
    · rw [if_pos hx, hx, ← hnbroot]
      exact aget_aset_self t.layers (persistL pld).root (persistL pld)
    · rw [if_neg hx]
      refine aget_aset_ne t.layers (persistL pld).root x (persistL pld) ?_
      rw [hnbroot]
      exact fun he => hx he.symm
  constructor
  · show ((aset t.layers (persistL pld).root (persistL pld)).map Prod.fst).Nodup
    rw [aset_existing_keys t.layers (persistL pld).root pld (persistL pld)
      (by rw [hnbroot]; exact hpld)]
    exact hw.wfc.keysNodup
  · intro r l h
    rw [hget2 r] at h
    by_cases hr : r = pr
    · rw [if_pos hr] at h
      cases h
      subst hr
      exact ⟨hnbroot, hprne⟩
    · rw [if_neg hr] at h
      exact hw.wfc.rootsMatch r l h
  · intro r l p h hp
    rw [hget2 r] at h
    by_cases hr : r = pr
    · rw [if_pos hr] at h
      cases h
      cases hp
    · rw [if_neg hr] at h
      obtain ⟨pl2, hpg, hpid⟩ := hw.wfc.parentStep r l p h hp
      by_cases hpp : p = pr
      · refine ⟨persistL pld, ?_, ?_⟩
        · rw [hget2 p, if_pos hpp]
        · have hdet : pl2 = pld := aget_det (hpp ▸ hpg) hpld
          rw [hpid, hdet]
          rfl
      · refine ⟨pl2, ?_, hpid⟩
        rw [hget2 p, if_neg hpp]
        exact hpg
  · intro r l h
    rw [hget2 r] at h
    show t.base.id ≤ l.id
    by_cases hr : r = pr
    · rw [if_pos hr] at h
      cases h
      show t.base.id ≤ pld.id
      exact hw.wfc.idGe pr pld hpld
    · rw [if_neg hr] at h
      exact hw.wfc.idGe r l h
  · intro r l h
    rw [hget2 r] at h
    have hlen : (aset t.layers (persistL pld).root (persistL pld)).length
        = t.layers.length :=
      aset_existing_length t.layers (persistL pld).root pld (persistL pld)
        (by rw [hnbroot]; exact hpld)
    show l.id + 1 ≤ t.base.id
      + (aset t.layers (persistL pld).root (persistL pld)).length
    rw [hlen]
    by_cases hr : r = pr
    · rw [if_pos hr] at h
      cases h
      show pld.id + 1 ≤ t.base.id + t.layers.length
      exact hw.wfc.idBound pr pld hpld
    · rw [if_neg hr] at h
      exact hw.wfc.idBound r l h

theorem diffsOnPath_eq {t : LayerTree} (hw : WF t) :
    ∀ (n : Nat) (r : Hash) (l : LayerRec), aget t.layers r = some l →
      l.id ≤ t.base.id + n → ∀ f, l.id + 1 - t.base.id ≤ f →
      diffsOnPath t f r = some (l.id - t.base.id) := by
  intro n
  induction n with
  | zero =>
    intro r l hg hle f hf
    have hge := hw.wfc.idGe r l hg
    cases hp : l.parent with
    | none =>
      obtain ⟨f2, rfl⟩ : ∃ f2, f = f2 + 1 := ⟨f - 1, by omega⟩
      simp only [diffsOnPath, hg, hp]
      have h0 : l.id - t.base.id = 0 := by omega
      rw [h0]
    | some p =>
      obtain ⟨pl, hpg, hpid⟩ := hw.wfc.parentStep r l p hg hp
      have := hw.wfc.idGe p pl hpg
      omega
  | succ n ih =>
    intro r l hg hle f hf
    have hge := hw.wfc.idGe r l hg
    cases hp : l.parent with
    | none =>
      have hr := hw.diskUnique r l hg hp
      have hb : l = t.base := by
        rw [hr] at hg
        exact aget_det hg hw.baseGet
      obtain ⟨f2, rfl⟩ : ∃ f2, f = f2 + 1 := ⟨f - 1, by omega⟩
      simp only [diffsOnPath, hg, hp]
      have h0 : l.id - t.base.id = 0 := by rw [hb]; omega
      rw [h0]
    | some p =>
      obtain ⟨pl, hpg, hpid⟩ := hw.wfc.parentStep r l p hg hp
      have hgep := hw.wfc.idGe p pl hpg
      obtain ⟨f2, rfl⟩ : ∃ f2, f = f2 + 1 := ⟨f - 1, by omega⟩
      simp only [diffsOnPath, hg, hp]
      rw [ih p pl hpg (by omega) f2 (by omega)]
      show some (pl.id - t.base.id + 1) = some (l.id - t.base.id)
      congr 1
      omega

theorem capDescend_spec {t : LayerTree} (hw : WF t) :
    ∀ (n : Nat) (r : Hash) (l : LayerRec), aget t.layers r = some l →
      l.parent ≠ none →
      (l.id - t.base.id ≤ n + 1 →
        capDescend t l n = none ∨
        ∃ d pr pld, capDescend t l n = some d ∧ d.parent = some pr ∧
          aget t.layers pr = some pld ∧ pld.parent = none) ∧
      (n + 1 < l.id - t.base.id →
        ∃ d pr pld, capDescend t l n = some d ∧ d.parent = some pr ∧
          aget t.layers pr = some pld ∧ pld.parent ≠ none ∧ l.id = d.id + n ∧
          ∃ rd, aget t.layers rd = some d) := by
  intro n
  induction n with
  | zero =>
    intro r l hg hp
    obtain ⟨p, hp'⟩ : ∃ p, l.parent = some p := by
      cases hlp : l.parent with
      | none => exact absurd hlp hp
      | some q => exact ⟨q, rfl⟩
    obtain ⟨pl, hpg, hpid⟩ := hw.wfc.parentStep r l p hg hp'
    have hgep := hw.wfc.idGe p pl hpg
    have hgel := hw.wfc.idGe r l hg
    constructor
    · intro hle
      right
      refine ⟨l, p, pl, rfl, hp', hpg, ?_⟩
      cases hplp : pl.parent with
      | none => rfl
      | some q =>
        obtain ⟨ql, hqg, hqid⟩ := hw.wfc.parentStep p pl q hpg hplp
        have := hw.wfc.idGe q ql hqg
        omega
    · intro hlt
      cases hplp : pl.parent with
      | none =>
        exfalso
        have hpr := hw.diskUnique p pl hpg hplp
        have hpb : pl = t.base := by
          rw [hpr] at hpg
          exact aget_det hpg hw.baseGet
        rw [hpb] at hpid
        omega
      | some q =>
        refine ⟨l, p, pl, rfl, hp', hpg, ?_, by omega, ⟨r, hg⟩⟩
        intro h
        rw [hplp] at h
        cases h
  | succ n ih =>
    intro r l hg hp
    obtain ⟨p, hp'⟩ : ∃ p, l.parent = some p := by
      cases hlp : l.parent with
      | none => exact absurd hlp hp
      | some q => exact ⟨q, rfl⟩
    obtain ⟨pl, hpg, hpid⟩ := hw.wfc.parentStep r l p hg hp'
    have hgep := hw.wfc.idGe p pl hpg
    have hunfold : capDescend t l (n + 1) =
        if pl.parent = none then none else capDescend t pl n := by
      simp only [capDescend, hp', hpg]
    by_cases hplp : pl.parent = none
    · rw [if_pos hplp] at hunfold
      constructor
      · intro _
        exact Or.inl hunfold
      · intro hlt
        exfalso
        have hpr := hw.diskUnique p pl hpg hplp
        have hpb : pl = t.base := by
          rw [hpr] at hpg
          exact aget_det hpg hw.baseGet
        rw [hpb] at hpid
        omega
    · rw [if_neg hplp] at hunfold
      have ihres := ih p pl hpg hplp
      constructor
      · intro hle
        rcases ihres.1 (by omega) with h | ⟨d, pr, pld, hcd, hdp, hpldg, hpldn⟩
        · exact Or.inl (by rw [hunfold]; exact h)
        · exact Or.inr ⟨d, pr, pld, by rw [hunfold]; exact hcd, hdp, hpldg, hpldn⟩
      · intro hlt
        obtain ⟨d, pr, pld, hcd, hdp, hpldg, hpldn, hdid, hdlive⟩ := ihres.2 (by omega)
        exact ⟨d, pr, pld, by rw [hunfold]; exact hcd, hdp, hpldg, hpldn, by omega, hdlive⟩

theorem relink_get {t : LayerTree} (hw : WF t) {pr : Hash} {pld : LayerRec}
    (hpld : aget t.layers pr = some pld) (x : Hash) :
    aget (aset t.layers (persistL pld).root (persistL pld)) x
      = if x = pr then some (persistL pld) else aget t.layers x := by
  have hnbroot : (persistL pld).root = pr := (hw.wfc.rootsMatch pr pld hpld).1
  by_cases hx : x = pr
  · rw [if_pos hx, hx, ← hnbroot]
    exact aget_aset_self t.layers (persistL pld).root (persistL pld)
  · rw [if_neg hx]
    refine aget_aset_ne t.layers (persistL pld).root x (persistL pld) ?_
    rw [hnbroot]
    exact fun he => hx he.symm

theorem capFlatten_count {t : LayerTree} (hw : WF t) {pr : Hash} {pld : LayerRec}
    (hpld : aget t.layers pr = some pld) (hpdiff : pld.parent ≠ none) :
    ∀ (n : Nat) (r : Hash) (l d : LayerRec),
      aget t.layers r = some l → l.parent ≠ none →
      capDescend t l n = some d → d.parent = some pr →
      (∃ rd, aget t.layers rd = some d) → l.id = d.id + n →
      pr ∈ chainOf { t with
        layers := aset t.layers (persistL pld).root (persistL pld) } r ∧
      ∀ f, n + 2 ≤ f → diffsOnPath (capFlattenInto t pld) f r = some (n + 1) := by
  have hw1 := WFc_relink hw hpld
  have hprb : pr ≠ t.base.root := by
    intro he
    rw [he] at hpld
    have hdet := aget_det hpld hw.baseGet
    rw [hdet] at hpdiff
    exact hpdiff hw.baseParent
  have hbase1 : aget (aset t.layers (persistL pld).root (persistL pld)) t.base.root
      = some t.base := by
    rw [relink_get hw hpld t.base.root, if_neg (fun he => hprb he.symm)]
    exact hw.baseGet
  have hnb1 : aget (aset t.layers (persistL pld).root (persistL pld)) pr
      = some (persistL pld) := by
    rw [relink_get hw hpld pr, if_pos rfl]
  have hprc : pr ∈ chainOf { t with
      layers := aset t.layers (persistL pld).root (persistL pld) } pr := by
    rw [chainOf_disk hnb1 rfl]
    exact List.mem_singleton.mpr rfl
  have surv : ∀ y, pr ∈ chainOf { t with
      layers := aset t.layers (persistL pld).root (persistL pld) } y →
      aget (capFlattenInto t pld).layers y
        = aget (aset t.layers (persistL pld).root (persistL pld)) y := by
    intro y hy
    have hnr : ¬ ReachC (buildChildren (aset t.layers (persistL pld).root (persistL pld)))
        t.base.root y := by
      intro hreach
      have hbc : t.base.root ∈ chainOf { t with
          layers := aset t.layers (persistL pld).root (persistL pld) } y :=
        reach_chain hw1 ⟨t.base, hbase1⟩ hreach
      obtain ⟨ly, hly⟩ := chainFrom_mem_live hbc
      exact hprb (chain_terminal_unique hw1 hly hbc hy hbase1 hnb1 hw.baseParent rfl).symm
    show aget (removeRec (buildChildren (aset t.layers (persistL pld).root (persistL pld)))
      (aset t.layers (persistL pld).root (persistL pld)).length
      ⟨aset t.layers (persistL pld).root (persistL pld), t.descendants, t.lookup⟩
      t.base.root).layers y = _
    rw [removeRec_preserves (buildChildren (aset t.layers (persistL pld).root (persistL pld)))
      (aset t.layers (persistL pld).root (persistL pld)).length
      ⟨aset t.layers (persistL pld).root (persistL pld), t.descendants, t.lookup⟩
      t.base.root y hnr]
  intro n
  induction n with
  | zero =>
    intro r l d hg hp hcd hdp hdlive hid
    have hld : l = d := Option.some.inj hcd
    rw [← hld] at hdp
    obtain ⟨plr, hplr, hidr⟩ := hw.wfc.parentStep r l pr hg hdp
    have hplr_det : plr = pld := aget_det hplr hpld
    have hrne : r ≠ pr := by
      intro he
      rw [he] at hg
      have hlp : l = pld := aget_det hg hpld
      rw [hplr_det] at hidr
      rw [hlp] at hidr
      omega
    have hg1 : aget (aset t.layers (persistL pld).root (persistL pld)) r = some l := by
      rw [relink_get hw hpld r, if_neg hrne]
      exact hg
    have hc1 : pr ∈ chainOf { t with
        layers := aset t.layers (persistL pld).root (persistL pld) } r := by
      rw [chainOf_cons hw1 hg1 hdp]
      exact List.mem_cons_of_mem r hprc
    refine ⟨hc1, ?_⟩
    intro f hf
    obtain ⟨f2, rfl⟩ : ∃ f2, f = f2 + 2 := ⟨f - 2, by omega⟩
    have hgr2 : aget (capFlattenInto t pld).layers r = some l := by
      rw [surv r hc1]
      exact hg1
    have hgpr2 : aget (capFlattenInto t pld).layers pr = some (persistL pld) := by
      rw [surv pr hprc]
      exact hnb1
    have hnbp : (persistL pld).parent = none := rfl
    simp only [diffsOnPath, hgr2, hdp, hgpr2, hnbp]
    rfl
  | succ n ih =>
    intro r l d hg hp hcd hdp hdlive hid
    obtain ⟨p, hp'⟩ : ∃ p, l.parent = some p := by
      cases hlp : l.parent with
      | none => exact absurd hlp hp
      | some q => exact ⟨q, rfl⟩
    obtain ⟨pl2, hpg, hpid⟩ := hw.wfc.parentStep r l p hg hp'
    have hunfold : capDescend t l (n + 1)
        = if pl2.parent = none then none else capDescend t pl2 n := by
      simp only [capDescend, hp', hpg]
    rw [hunfold] at hcd
    by_cases hplp : pl2.parent = none
    · rw [if_pos hplp] at hcd
      cases hcd
    · rw [if_neg hplp] at hcd
      have ihres := ih p pl2 d hpg hplp hcd hdp hdlive (by omega)
      obtain ⟨rd, hgd⟩ := hdlive
      obtain ⟨pld2, hpld2, hdid⟩ := hw.wfc.parentStep rd d pr hgd hdp
      have hdet2 : pld2 = pld := aget_det hpld2 hpld
      have hrne : r ≠ pr := by
        intro he
        rw [he] at hg
        have hlp : l = pld := aget_det hg hpld
        rw [hdet2] at hdid
        rw [hlp] at hid
        omega
      have hg1 : aget (aset t.layers (persistL pld).root (persistL pld)) r = some l := by
        rw [relink_get hw hpld r, if_neg hrne]
        exact hg
      have hc1 : pr ∈ chainOf { t with
          layers := aset t.layers (persistL pld).root (persistL pld) } r := by
        rw [chainOf_cons hw1 hg1 hp']
        exact List.mem_cons_of_mem r ihres.1
      refine ⟨hc1, ?_⟩
      intro f hf
      obtain ⟨f2, rfl⟩ : ∃ f2, f = f2 + 1 := ⟨f - 1, by omega⟩
      have hgr2 : aget (capFlattenInto t pld).layers r = some l := by
        rw [surv r hc1]
        exact hg1
      simp only [diffsOnPath, hgr2, hp']
      rw [ihres.2 f2 (by omega)]
      rfl

/-- C2: `cap(root, keep)` errors on a missing layer and on the disk layer;
with `keep = 0` it flattens the whole chain into a tree holding exactly the
one new base layer; with `keep > 0` it makes no modification when the diff
chain strictly below `root` is shorter than `keep` (path count at most
`keep`), and otherwise flattens the stale parent into a new disk layer that
replaces `tree.base`, leaving exactly `keep` diff layers on the path from
`root` down to the disk layer. -/
theorem cap_spec {t : LayerTree} (hw : WF t) (root : Hash) (keep : Nat) :
    (aget t.layers (trieRootHash root) = none →
      t.cap root keep = .error .layerMissing)
    ∧ (∀ l, aget t.layers (trieRootHash root) = some l → l.parent = none →
      t.cap root keep = .error .diskLayerImmutable)
    ∧ (∀ l, aget t.layers (trieRootHash root) = some l → l.parent ≠ none →
      keep = 0 →
      t.cap root keep = .ok
        { base := persistL l
          layers := [((persistL l).root, persistL l)]
          descendants := []
          lookup := Lookup.emptyIdx })
    ∧ (∀ l c, aget t.layers (trieRootHash root) = some l → l.parent ≠ none →
      0 < keep → diffsOnPath t t.layers.length (trieRootHash root) = some c →
      c ≤ keep → t.cap root keep = .ok t)
    ∧ (∀ l c, aget t.layers (trieRootHash root) = some l → l.parent ≠ none →
      0 < keep → diffsOnPath t t.layers.length (trieRootHash root) = some c →
      keep < c →
      ∃ t2 pr pld, aget t.layers pr = some pld ∧ pld.parent ≠ none ∧
        t.cap root keep = .ok t2 ∧ t2.base = persistL pld ∧
        ∀ f, keep + 1 ≤ f → diffsOnPath t2 f (trieRootHash root) = some keep) := by
  refine ⟨?_, ?_, ?_, ?_, ?_⟩
  · intro hm
    simp [LayerTree.cap, hm]
  · intro l hg hp
    simp [LayerTree.cap, hg, hp]
  · intro l hg hp hk
    obtain ⟨p, hp'⟩ : ∃ p, l.parent = some p := by
      cases hlp : l.parent with
      | none => exact absurd hlp hp
      | some q => exact ⟨q, rfl⟩
    subst hk
    simp [LayerTree.cap, hg, hp']
  · intro l c hg hp hkpos hdiff hc
    obtain ⟨p, hp'⟩ : ∃ p, l.parent = some p := by
      cases hlp : l.parent with
      | none => exact absurd hlp hp
      | some q => exact ⟨q, rfl⟩
    have hk0 : ¬ keep = 0 := by omega
    have hbound := hw.wfc.idBound _ l hg
    have hdq := diffsOnPath_eq hw l.id (trieRootHash root) l hg
      (Nat.le_add_left l.id t.base.id) t.layers.length (by omega)
    rw [hdq] at hdiff
    have hceq : c = l.id - t.base.id := (Option.some.inj hdiff).symm
    rcases (capDescend_spec hw (keep - 1) (trieRootHash root) l hg hp).1 (by omega) with
      hcd | ⟨d, pr, pld, hcd, hdp, hpldg, hpldn⟩
    · simp [LayerTree.cap, hg, hp', hk0, hcd]
    · simp [LayerTree.cap, hg, hp', hk0, hcd, hdp, hpldg, hpldn]
  · intro l c hg hp hkpos hdiff hc
    obtain ⟨p, hp'⟩ : ∃ p, l.parent = some p := by
      cases hlp : l.parent with
      | none => exact absurd hlp hp
      | some q => exact ⟨q, rfl⟩
    have hk0 : ¬ keep = 0 := by omega
    have hbound := hw.wfc.idBound _ l hg
    have hdq := diffsOnPath_eq hw l.id (trieRootHash root) l hg
      (Nat.le_add_left l.id t.base.id) t.layers.length (by omega)
    rw [hdq] at hdiff
    have hceq : c = l.id - t.base.id := (Option.some.inj hdiff).symm
    obtain ⟨d, pr, pld, hcd, hdp, hpldg, hpldn, hdid, hdlive⟩ :=
      (capDescend_spec hw (keep - 1) (trieRootHash root) l hg hp).2 (by omega)
    refine ⟨capFlattenInto t pld, pr, pld, hpldg, hpldn, ?_, rfl, ?_⟩
    · simp [LayerTree.cap, hg, hp', hk0, hcd, hdp, hpldg, hpldn]
    · intro f hf
      have hres := (capFlatten_count hw hpldg hpldn (keep - 1) (trieRootHash root) l d
        hg hp hcd hdp hdlive hdid).2 f (by omega)
      have hke : keep - 1 + 1 = keep := by omega
      rw [hke] at hres
      exact hres

theorem cap_spec_witness :
    WF treeW ∧ (aget treeW.layers (trieRootHash 9) = none →
      treeW.cap 9 1 = .error .layerMissing) := by
  have hw : WF treeW := WF_build opsW (initTree 1 0) (WF_init 1 0)
  exact ⟨hw, (cap_spec hw 9 1).1⟩
